import Mathlib

/-!
kodb-import: script splitting and batched execution.

A shallow embedding of the script engine of `kodb-import`
(`jobs/importDb/importDb.go`, `utils/utils.go`, `kodb-import.go`).

Go strings are modelled as lists of characters (`Str`).  The scripts are
UTF-8 text and every separator used by the code is ASCII, so splitting and
prefix tests on characters agree with Go's byte-wise ones.  Go panics
(index or slice bounds out of range) and loops that do not stop are explicit
results (`Res.panic`, `Res.outOfFuel`).  The indices and the width of the
sliding window are Go `int`s: integers whose additions wrap around at 64 bits
(`wrapInt`).
-/

set_option autoImplicit false

namespace KodbImport

/-! ## Strings -/

/-- A Go string, as its sequence of characters. -/
abbrev Str := List Char

/-- Result of a piece of Go code that may panic or fail to terminate. -/
inductive Res (α : Type) where
  | ok (a : α)
  | panic
  | outOfFuel
  deriving DecidableEq, Repr

/-- Go `unicode.IsSpace`: the characters `strings.TrimSpace` removes. -/
def isSpace (c : Char) : Bool :=
  c = '\t' || c = '\n' || c.val = 0x0B || c.val = 0x0C || c = '\r' || c = ' ' ||
  c.val = 0x85 || c.val = 0xA0 || c.val = 0x1680 ||
  (0x2000 ≤ c.val && c.val ≤ 0x200A) ||
  c.val = 0x2028 || c.val = 0x2029 || c.val = 0x202F || c.val = 0x205F || c.val = 0x3000

/-- Go `strings.TrimSpace`: drop leading and trailing white space. -/
def TrimSpace (s : Str) : Str :=
  ((s.dropWhile isSpace).reverse.dropWhile isSpace).reverse

/-- Go `strings.HasPrefix`. -/
def HasPrefix (s pre : Str) : Bool := pre.isPrefixOf s

/-- Go `strings.HasSuffix`. -/
def HasSuffix (s suf : Str) : Bool := suf.reverse.isPrefixOf s.reverse

/-- Go `strings.TrimSuffix`: remove one trailing copy of `suf`, if present. -/
def TrimSuffix (s suf : Str) : Str :=
  if HasSuffix s suf then s.take (s.length - suf.length) else s

/-- Go `strings.Join`. -/
def Join : List Str → Str → Str
  | [], _ => []
  | [a], _ => a
  | a :: b :: rest, sep => a ++ sep ++ Join (b :: rest) sep

/-- Put a character in front of the first piece of a split. -/
def consHead (c : Char) : List Str → List Str
  | [] => [[c]]
  | seg :: segs => (c :: seg) :: segs

/-- Scan for `Split` with a non-empty separator.  The first argument counts
the characters of an already matched separator that are still to be skipped.
The result lists the pieces from the current position on; its head is the
piece that is being read. -/
def splitGo (sep : Str) : Nat → Str → List Str
  | _, [] => [[]]
  | k + 1, _ :: t => splitGo sep k t
  | 0, c :: t =>
    if sep.isPrefixOf (c :: t) then [] :: splitGo sep (sep.length - 1) t
    else consHead c (splitGo sep 0 t)

/-- Go `strings.Split(s, sep)`: the pieces of `s` between the successive
leftmost, non-overlapping occurrences of `sep`; with an empty separator the
string is exploded into its characters. -/
def Split (s sep : Str) : List Str :=
  if sep = [] then s.map fun c => [c] else splitGo sep 0 s

/-- The line separator `"\n"`. -/
def nl : Str := ['\n']

/-- The row separator `","`. -/
def comma : Str := [',']

/-! ## `importDb.go`: sliding window over a data dump -/

/-- Lines 150-153 of `runScripts`: when a batch was already emitted, its text
is replaced by `TrimSuffix(TrimSpace(text), ",")`. -/
def trimPrevious (batches : List Str) : List Str :=
  if batches.length > 0 then
    match batches[batches.length - 1]? with
    | some b => batches.set (batches.length - 1) (TrimSuffix (TrimSpace b) comma)
    | none => batches
  else batches

/-- Go `int` on the 64-bit platforms the tool is built for: an addition whose
result leaves the range wraps around. -/
def wrapInt (x : Int) : Int :=
  (x + 9223372036854775808) % 18446744073709551616 - 9223372036854775808

/-- Go `lines[i]`; `none` stands for the index out of range panic. -/
def lineAt (lines : List Str) (i : Int) : Option Str :=
  if 0 ≤ i then lines[i.toNat]? else none

/-- Go `lines[lo:hi]`; `none` stands for the slice bounds out of range panic.
The capacity of the slice `strings.Split` returns is its length. -/
def sliceLines (lines : List Str) (lo hi : Int) : Option (List Str) :=
  if 0 ≤ lo ∧ lo ≤ hi ∧ hi ≤ lines.length then
    some ((lines.drop lo.toNat).take (hi.toNat - lo.toNat))
  else none

/-- The `for l < len(lines)` loop of `runScripts` (lines 143-168).  `W` is the
value of `ImportBatSize`; `l`, `r` and `W` are Go `int`s, and the additions
wrap around.  One unit of fuel is used per iteration. -/
def windowLoop (W : Int) (lines : List Str) (header : Str) :
    Nat → Int → Int → List Str → Res (List Str)
  | 0, l, _, batches => if l < lines.length then .outOfFuel else .ok batches
  | fuel + 1, l, r, batches =>
    if l < lines.length then
      -- put r back on tail element if exceeded
      let r := if r ≥ lines.length then (lines.length : Int) - 1 else r
      -- remove any trailing "," from previous batch
      let batches := trimPrevious batches
      -- make sure we didn't just land on the blank line at the end of the file
      let atBlank : Option Bool :=
        if l = r then (lineAt lines l).map fun line => decide (TrimSpace line = [])
        else some false
      match atBlank with
      | none => .panic
      | some true => .ok batches
      | some false =>
        -- capture current window as batch
        match sliceLines lines l (wrapInt (r + 1)) with
        | none => .panic
        | some window =>
          windowLoop W lines header fuel (wrapInt (r + 1)) (wrapInt (r + W))
            (batches ++ [header ++ Join window nl])
    else .ok batches

/-- The `IsDataDump` branch of `runScripts` (lines 137-168): split the script
into lines, keep line 0 as header and emit the windows of the other lines. -/
def dataDumpBatches (fuel : Nat) (W : Int) (sql : Str) : Res (List Str) :=
  let lines := Split sql nl
  match lines[0]? with
  | none => .panic
  | some line0 => windowLoop W lines (line0 ++ nl) fuel 1 (wrapInt (1 + W)) []

/-! ## `importDb.go`: `splitBatches` -/

/-- The `for i := range batches` loop of `splitBatches`: the number of
iterations is fixed when the loop starts, while the body indexes the current
slice, which shrinks when an empty segment is removed. -/
def splitBatchesLoop : Nat → Nat → List Str → Res (List Str)
  | 0, _, batches => .ok batches
  | n + 1, i, batches =>
    match batches[i]? with
    | none => .panic
    | some b =>
      let batches := batches.set i (TrimSpace b)
      if TrimSpace b = [] then splitBatchesLoop n (i + 1) (batches.eraseIdx i)
      else splitBatchesLoop n (i + 1) batches

/-- Go `splitBatches`; the separator `mssql.BatchTerminator` is a parameter. -/
def splitBatches (BatchTerminator : Str) (sql : Str) : Res (List Str) :=
  let batches := Split sql BatchTerminator
  splitBatchesLoop batches.length 0 batches

/-! ## `importDb.go`: error classification and `runScripts` -/

/-- Go `isIgnoreErr`, on the message `err.Error()` of the error. -/
def isIgnoreErr (err : Str) : Bool :=
  if HasPrefix err "mssql: Cannot drop the view".toList ||
      HasPrefix err "mssql: Cannot drop the procedure".toList then
    true
  else false

/-- Go `Script`: the file name and the sql text of a `*.sql` file. -/
structure Script where
  Name : Str
  Sql : Str
  deriving DecidableEq, Repr

/-- Go `ScriptArgs`. -/
structure ScriptArgs where
  IsUseDefaultSystemDb : Bool
  IsDataDump : Bool
  deriving DecidableEq, Repr

/-- Go `defaultScriptArgs`. -/
def defaultScriptArgs : ScriptArgs :=
  { IsUseDefaultSystemDb := false, IsDataDump := false }

/-- A connection handle: `gormConn.Exec(batch).Error`, `none` for a nil error
and `some msg` for an error with message `msg`. -/
abbrev Conn := Str → Option Str

/-- The two handles `runScripts` asks the driver for; each request may fail. -/
structure Driver where
  GetMasterConnection : Except Str Conn
  GetTx : Except Str Conn

/-- What `runScripts` did: the batches handed to `Exec`, in order, and the
error it returned (`none` for nil). -/
structure Outcome where
  submitted : List Str
  err : Option Str
  deriving DecidableEq, Repr

/-- The `for j := range batches` loop of `runScripts` (lines 173-184); `log`
holds the batches submitted so far.  The result is the new log and the error
to return, if the loop returned one. -/
def execBatches (conn : Conn) : List Str → List Str → List Str × Option Str
  | [], log => (log, none)
  | b :: rest, log =>
    match conn b with
    | some e =>
      if !isIgnoreErr e then (log ++ [b], some e)
      else execBatches conn rest (log ++ [b])
    | none => execBatches conn rest (log ++ [b])

/-- The batches of one script (lines 134-171 of `runScripts`). -/
def scriptBatches (fuel : Nat) (W : Int) (BatchTerminator : Str) (scriptArgs : ScriptArgs)
    (script : Script) : Res (List Str) :=
  if scriptArgs.IsDataDump then dataDumpBatches fuel W script.Sql
  else splitBatches BatchTerminator script.Sql

/-- The `for i := range sqlScripts` loop of `runScripts` (lines 133-187). -/
def runScriptsLoop (fuel : Nat) (W : Int) (BatchTerminator : Str) (scriptArgs : ScriptArgs)
    (conn : Conn) : List Script → List Str → Res Outcome
  | [], log => .ok { submitted := log, err := none }
  | script :: rest, log =>
    match scriptBatches fuel W BatchTerminator scriptArgs script with
    | .ok batches =>
      match execBatches conn batches log with
      | (log1, some e) => .ok { submitted := log1, err := some e }
      | (log1, none) => runScriptsLoop fuel W BatchTerminator scriptArgs conn rest log1
    | .panic => .panic
    | .outOfFuel => .outOfFuel

/-- Go `runScripts`.  `W` is the package variable `ImportBatSize`, `fuel` bounds
the iterations of each sliding-window loop. -/
def runScripts (fuel : Nat) (W : Int) (BatchTerminator : Str) (driver : Driver)
    (scriptArgs : ScriptArgs) (sqlScripts : List Script) : Res Outcome :=
  if sqlScripts.length = 0 then .ok { submitted := [], err := none }
  else
    match (if scriptArgs.IsUseDefaultSystemDb then driver.GetMasterConnection
           else driver.GetTx) with
    | .error e => .ok { submitted := [], err := some e }
    | .ok gormConn => runScriptsLoop fuel W BatchTerminator scriptArgs gormConn sqlScripts []

/-! ## `kodb-import.go`, `args.go`: the batch size -/

/-- Initial value of the package variable `importDb.ImportBatSize`. -/
def ImportBatSize : Int := 16

/-- Default of the `-batchSize` flag in `GetArgs`. -/
def defaultBatchSizeFlag : Int := 16

/-- Lines 66-68 of `main`: the value of `importDb.ImportBatSize` after the
command-line override, from the parsed flag `args.ImportBatchSize`. -/
def mainImportBatSize (argsImportBatchSize : Int) : Int :=
  if argsImportBatchSize > 1 ∧ argsImportBatchSize < 1000 then argsImportBatchSize
  else ImportBatSize

/-! ## `utils.go`: `ReplaceUseDatabaseName` -/

/-- The class `\s` of Go regular expressions: `[\t\n\f\r ]`. -/
def reSpace (c : Char) : Bool :=
  c = '\t' || c = '\n' || c.val = 0x0C || c = '\r' || c = ' '

/-- The class `[^\]\s;]` of the database name. -/
def reNameChar (c : Char) : Bool := !(c = ']' || reSpace c || c = ';')

/-- The literal `U` under the flag `(?i)`. -/
def reU (c : Char) : Bool := c = 'U' || c = 'u'

/-- The literal `S` under the flag `(?i)`; simple case folding also relates it
to the long s, U+017F. -/
def reS (c : Char) : Bool := c = 'S' || c = 's' || c.val = 0x17F

/-- The literal `E` under the flag `(?i)`. -/
def reE (c : Char) : Bool := c = 'E' || c = 'e'

/-- The end `(\])?` of the pattern: a closing bracket is taken when present. -/
def reClose (s : Str) : Str :=
  match s with
  | ']' :: rest => rest
  | _ => s

/-- A match of the pattern: the matched text, the first group and the text
that follows the match. -/
structure UseMatch where
  text : Str
  openingBracket : Str
  rest : Str
  deriving DecidableEq, Repr

/-- The part `(\[)?([^\]\s;]+)(\])?` of the pattern, applied to `s`; `pre` is
the text matched before it.  The optional bracket is greedy: it is taken when
a name character follows it, and otherwise the bracket itself starts the name. -/
def reName (pre s : Str) : Option UseMatch :=
  match s with
  | [] => none
  | c :: t =>
    if c = '[' ∧ (t.head?.map reNameChar) = some true then
      let after := reClose (t.dropWhile reNameChar)
      some { text := pre ++ (c :: t).take ((c :: t).length - after.length),
             openingBracket := ['['], rest := after }
    else if reNameChar c then
      let after := reClose (t.dropWhile reNameChar)
      some { text := pre ++ (c :: t).take ((c :: t).length - after.length),
             openingBracket := [], rest := after }
    else none

/-- The pattern ``(?i)^\s*USE\s+(\[)?([^\]\s;]+)(\])?`` at the start of `s`
(leftmost-first match; `^` anchors it to the start of the text). -/
def reFind (s : Str) : Option UseMatch :=
  let ws := s.takeWhile reSpace
  match s.dropWhile reSpace with
  | u :: s1 :: e :: sp :: t =>
    if reU u ∧ reS s1 ∧ reE e ∧ reSpace sp then
      reName (ws ++ [u, s1, e, sp] ++ t.takeWhile reSpace) (t.dropWhile reSpace)
    else none
  | _ => none

/-- Go `ReplaceUseDatabaseName`.  `ReplaceAllStringFunc` replaces the only
possible match, the one at the start of the text; the callback matches the
pattern again on the matched text and reads group 1 (`submatch[1]`), which
panics for a nil `submatch`. -/
def ReplaceUseDatabaseName (sql newDbName : Str) : Res Str :=
  match reFind sql with
  | none => .ok sql
  | some m =>
    match reFind m.text with
    | none => .panic
    | some submatch =>
      let replacement :=
        if submatch.openingBracket ≠ [] then "USE ".toList ++ ("[".toList ++ newDbName ++ "]".toList)
        else "USE ".toList ++ newDbName
      .ok (replacement ++ m.rest)

/-! ## Vocabulary of the properties -/

/-- The separator does not occur in the string. -/
def SepFree (sep x : Str) : Prop := ¬ sep <:+: x

/-- No proper non-empty prefix of the separator is also a suffix of it. -/
def Unbordered (sep : Str) : Prop :=
  ∀ k, k < sep.length → 0 < k → sep.take k ≠ sep.drop (sep.length - k)

instance (sep : Str) : Decidable (Unbordered sep) := by
  unfold Unbordered; infer_instance

/-- The batch gets an error from the connection that `isIgnoreErr` does not
accept. -/
def isFatal (conn : Conn) (b : Str) : Bool :=
  match conn b with
  | some e => !isIgnoreErr e
  | none => false

/-- A sample connection: dropping the view `V` fails with an ignorable error,
the batch `BAD` fails with a syntax error, every other batch succeeds. -/
def sampleConn : Conn := fun b =>
  if b = "DROP VIEW V".toList then some "mssql: Cannot drop the view 'V'".toList
  else if b = "BAD".toList then some "mssql: Incorrect syntax".toList
  else none

/-- A sample driver whose transaction handle is `sampleConn`. -/
def sampleDriver : Driver :=
  { GetMasterConnection := .error "no master".toList, GetTx := .ok sampleConn }

/-- Three sample scripts; the second one holds the failing batch `BAD`. -/
def sampleScripts : List Script :=
  [{ Name := "a.sql".toList, Sql := "DROP VIEW V\nGO\nCREATE VIEW V".toList },
   { Name := "b.sql".toList, Sql := "BAD\nGO\nSELECT 1".toList },
   { Name := "c.sql".toList, Sql := "SELECT 2".toList }]

/-- A segment as `splitBatches` returns it: trimmed, not empty and free of the
separator. -/
def GoodSegment (sep x : Str) : Prop := TrimSpace x = x ∧ x ≠ [] ∧ SepFree sep x

/-- The lines of a batch after its header line. -/
def batchLines (b : Str) : List Str := (Split b nl).tail

/-- Put the comma back at the end of the last line. -/
def readdComma : List Str → List Str
  | [] => []
  | [x] => [x ++ comma]
  | x :: y :: rest => x :: readdComma (y :: rest)

/-- The line is empty or holds white space only. -/
def isBlank (l : Str) : Bool := TrimSpace l = []

/-- Go `strings.TrimRightFunc(s, unicode.IsSpace)`. -/
def TrimRightSpace (s : Str) : Str := (s.reverse.dropWhile isSpace).reverse

/-- The rows read back from the batches before the last one: the header line
is dropped and the comma stripped from the last row is put back. -/
def restoreNonFinal : List Str → List Str
  | [] => []
  | b :: rest => readdComma (batchLines b) ++ restoreNonFinal rest

/-- The rows read back from the emitted batches, in order: the header line of
each batch is dropped and the comma is put back on the last row of each batch
but the final one; the rows of the final batch are its lines that are not
blank. -/
def restoreRows : List Str → List Str
  | [] => []
  | [b] => (batchLines b).filter fun l => !isBlank l
  | b :: b2 :: rest => readdComma (batchLines b) ++ restoreRows (b2 :: rest)

/-- The text ends in a character that is neither white space nor a comma. -/
def endsClean (r : Str) : Bool :=
  match r.getLast? with
  | some c => !isSpace c && c != ','
  | none => false

/-- The row ends in one comma that directly follows its text: what comes
before the comma ends in a character that is neither white space nor a comma. -/
def commaRow (r : Str) : Bool := HasSuffix r comma && endsClean r.dropLast

/-- The shape of a data dump: a header line that is not blank, rows that are
not blank and have no trailing white space, each but the last ending in a
comma, and at most one trailing blank line. -/
structure DumpShape (H : Str) (rows tl : List Str) : Prop where
  header_line : '\n' ∉ H
  header_text : TrimSpace H ≠ []
  row_line : ∀ r ∈ rows, '\n' ∉ r
  row_text : ∀ r ∈ rows, TrimSpace r ≠ []
  row_end : ∀ r ∈ rows, TrimRightSpace r = r
  row_comma : ∀ r ∈ rows.dropLast, HasSuffix r comma = true
  tl_length : tl.length ≤ 1
  tl_line : ∀ t ∈ tl, '\n' ∉ t
  tl_blank : ∀ t ∈ tl, TrimSpace t = []

/-- The batch appended for the window `w`: the header and the joined lines
(line 164 of `runScripts`). -/
def rawBatch (header : Str) (w : List Str) : Str := header ++ Join w nl

/-- The batch of the window `w` after lines 151-152 of `runScripts` were
applied to it. -/
def trimmedBatch (header : Str) (w : List Str) : Str :=
  TrimSuffix (TrimSpace (rawBatch header w)) comma

/-- The batches are those of the windows, in order: every batch has been
trimmed, except, possibly, the last one. -/
def EmittedFrom (header : Str) (batches : List Str) (windows : List (List Str)) : Prop :=
  batches = windows.map (trimmedBatch header) ∨
  ∃ ws w, windows = ws ++ [w] ∧ batches = ws.map (trimmedBatch header) ++ [rawBatch header w]

/-! ## Lemmas on `Split` and `Join` -/

theorem sepFree_tail {sep : Str} {c : Char} {t : Str} (h : SepFree sep (c :: t)) :
    SepFree sep t := fun hi => h (hi.trans (List.suffix_cons c t).isInfix)

theorem sepFree_of_infix {sep x y : Str} (hxy : x <:+: y) (h : SepFree sep y) :
    SepFree sep x := fun hi => h (hi.trans hxy)

theorem not_prefix_of_sepFree {sep x : Str} (h : SepFree sep x) : ¬ sep <+: x :=
  fun hp => h hp.isInfix

theorem splitGo_skip (sep : Str) (a rest : Str) :
    splitGo sep a.length (a ++ rest) = splitGo sep 0 rest := by
  induction a with
  | nil => rfl
  | cons c a ih => simpa [splitGo] using ih

theorem splitGo_no_match {sep : Str} {c : Char} {t : Str} (h : ¬ sep <+: c :: t) :
    splitGo sep 0 (c :: t) = consHead c (splitGo sep 0 t) := by
  have : sep.isPrefixOf (c :: t) = false := by
    rw [← Bool.not_eq_true, List.isPrefixOf_iff_prefix]; exact h
  simp [splitGo, this]

theorem splitGo_match {sep : Str} (hne : sep ≠ []) (rest : Str) :
    splitGo sep 0 (sep ++ rest) = [] :: splitGo sep 0 rest := by
  cases sep with
  | nil => exact absurd rfl hne
  | cons c s =>
    have hp : (c :: s).isPrefixOf (c :: (s ++ rest)) = true := by
      rw [List.isPrefixOf_iff_prefix]; exact List.prefix_append (c :: s) rest
    have : splitGo (c :: s) 0 (c :: (s ++ rest))
        = [] :: splitGo (c :: s) s.length (s ++ rest) := by
      simp [splitGo, hp]
    simpa [splitGo_skip] using this

theorem splitGo_sepFree {sep : Str} : ∀ x : Str, SepFree sep x → splitGo sep 0 x = [x]
  | [], _ => rfl
  | c :: t, h => by
    rw [splitGo_no_match (not_prefix_of_sepFree h), splitGo_sepFree t (sepFree_tail h)]
    rfl

/-- With an unbordered separator, no occurrence of the separator starts inside
a separator-free text that is followed by the separator. -/
theorem not_prefix_straddle {sep : Str} (hu : Unbordered sep) {x : Str} (hx : x ≠ [])
    (hf : SepFree sep x) (rest : Str) : ¬ sep <+: x ++ (sep ++ rest) := by
  intro hp
  have hxp : x <+: x ++ (sep ++ rest) := List.prefix_append _ _
  rcases Nat.le_total sep.length x.length with hle | hle
  · exact hf (List.prefix_of_prefix_length_le hp hxp hle).isInfix
  · obtain ⟨y, hy⟩ := List.prefix_of_prefix_length_le hxp hp hle
    have hxl : 0 < x.length := List.length_pos.mpr hx
    have hlen : sep.length = x.length + y.length := by rw [← hy]; simp
    have hp1 : x ++ y <+: x ++ (sep ++ rest) := by rw [hy]; exact hp
    have hyp : y <+: sep ++ rest := (List.prefix_append_right_inj x).mp hp1
    have hys : y <+: sep :=
      List.prefix_of_prefix_length_le hyp (List.prefix_append _ _) (by omega)
    by_cases hy0 : y.length = 0
    · have : y = [] := List.length_eq_zero.mp hy0
      subst this
      simp at hy
      exact hf (hy ▸ List.infix_refl _)
    · apply hu y.length (by omega) (by omega)
      have h1 : sep.take y.length = y := by
        obtain ⟨z, hz⟩ := hys
        rw [← hz]; simp
      have h2 : sep.drop (sep.length - y.length) = y := by
        have : sep.length - y.length = x.length := by omega
        rw [this, ← hy]; simp
      rw [h1, h2]

theorem splitGo_append_sep {sep : Str} (hne : sep ≠ []) (hu : Unbordered sep) :
    ∀ (x : Str), SepFree sep x → ∀ rest : Str,
      splitGo sep 0 (x ++ (sep ++ rest)) = x :: splitGo sep 0 rest
  | [], _, rest => by simpa using splitGo_match hne rest
  | c :: t, h, rest => by
    have hnp : ¬ sep <+: c :: (t ++ (sep ++ rest)) :=
      not_prefix_straddle hu (List.cons_ne_nil c t) h rest
    rw [List.cons_append, splitGo_no_match hnp,
      splitGo_append_sep hne hu t (sepFree_tail h) rest]
    rfl

/-- Splitting a joined list of separator-free pieces gives the pieces back. -/
theorem Split_Join {sep : Str} (hne : sep ≠ []) (hu : Unbordered sep) :
    ∀ segs : List Str, segs ≠ [] → (∀ x ∈ segs, SepFree sep x) →
      Split (Join segs sep) sep = segs
  | [], h, _ => absurd rfl h
  | [a], _, hf => by
    simp [Split, hne, Join, splitGo_sepFree a (hf a (by simp))]
  | a :: b :: rest, _, hf => by
    have ih := Split_Join hne hu (b :: rest) (by simp)
      (fun x hx => hf x (List.mem_cons_of_mem _ hx))
    simp only [Split, hne, if_false] at ih ⊢
    rw [Join, List.append_assoc, splitGo_append_sep hne hu a (hf a (by simp)), ih]

theorem unbordered_nl : Unbordered nl := by decide

theorem sepFree_nl {x : Str} (h : '\n' ∉ x) : SepFree nl x := by
  intro hi
  obtain ⟨s, t, hst⟩ := hi
  apply h
  rw [← hst]
  simp [nl]

/-! ## Lemmas on the execution loops -/

theorem isSome_of_isFatal {conn : Conn} {b : Str} (h : isFatal conn b = true) :
    (conn b).isSome = true := by
  unfold isFatal at h
  cases hc : conn b with
  | none => simp [hc] at h
  | some e => rfl

theorem execBatches_clean (conn : Conn) :
    ∀ (bs log : List Str), (∀ b ∈ bs, isFatal conn b = false) →
      execBatches conn bs log = (log ++ bs, none)
  | [], log, _ => by simp [execBatches]
  | b :: rest, log, h => by
    have hb := h b (by simp)
    have ih := execBatches_clean conn rest (log ++ [b])
      (fun x hx => h x (List.mem_cons_of_mem _ hx))
    unfold isFatal at hb
    cases hc : conn b with
    | none => simp [execBatches, hc, ih]
    | some e =>
      rw [hc] at hb
      simp only [Bool.not_eq_false'] at hb
      simp [execBatches, hc, hb, ih]

theorem execBatches_fatal (conn : Conn) (b : Str) (post : List Str)
    (hb : isFatal conn b = true) :
    ∀ (pre log : List Str), (∀ x ∈ pre, isFatal conn x = false) →
      execBatches conn (pre ++ b :: post) log = (log ++ pre ++ [b], conn b)
  | [], log, _ => by
    unfold isFatal at hb
    cases hc : conn b with
    | none => simp [hc] at hb
    | some e =>
      rw [hc] at hb
      simp only [Bool.not_eq_true'] at hb
      simp [execBatches, hc, hb]
  | a :: pre, log, h => by
    have ha := h a (by simp)
    have ih := execBatches_fatal conn b post hb pre (log ++ [a])
      (fun x hx => h x (List.mem_cons_of_mem _ hx))
    unfold isFatal at ha
    cases hc : conn a with
    | none => simp [execBatches, hc, ih]
    | some e =>
      rw [hc] at ha
      simp only [Bool.not_eq_false'] at ha
      simp [execBatches, hc, ha, ih]

theorem first_fatal_or_clean (conn : Conn) :
    ∀ all : List Str, (∀ b ∈ all, isFatal conn b = false) ∨
      ∃ pre b post, all = pre ++ b :: post ∧ (∀ x ∈ pre, isFatal conn x = false) ∧
        isFatal conn b = true
  | [] => Or.inl (by simp)
  | a :: rest => by
    cases ha : isFatal conn a with
    | true => exact Or.inr ⟨[], a, rest, rfl, by simp, ha⟩
    | false =>
      rcases first_fatal_or_clean conn rest with h | ⟨pre, b, post, h1, h2, h3⟩
      · left
        intro x hx
        rcases List.mem_cons.mp hx with rfl | hx
        · exact ha
        · exact h x hx
      · right
        refine ⟨a :: pre, b, post, by simp [h1], ?_, h3⟩
        intro x hx
        rcases List.mem_cons.mp hx with rfl | hx
        · exact ha
        · exact h2 x hx

theorem runScriptsLoop_clean (fuel : Nat) (W : Int) (sep : Str) (args : ScriptArgs) (conn : Conn)
    {scripts : List Script} {bss : List (List Str)}
    (hsplit : List.Forall₂ (fun s bs => scriptBatches fuel W sep args s = .ok bs) scripts bss) :
    ∀ log : List Str, (∀ b ∈ bss.flatten, isFatal conn b = false) →
      runScriptsLoop fuel W sep args conn scripts log
        = .ok { submitted := log ++ bss.flatten, err := none } := by
  induction hsplit with
  | nil => intro log _; simp [runScriptsLoop]
  | @cons s bs scripts bss hs _ ih =>
    intro log h
    have h1 : ∀ b ∈ bs, isFatal conn b = false := fun b hb => h b (by simp [hb])
    have h2 : ∀ b ∈ bss.flatten, isFatal conn b = false := fun b hb =>
      h b (by rw [List.flatten_cons]; exact List.mem_append_right _ hb)
    simp only [runScriptsLoop, hs, execBatches_clean conn bs log h1, ih (log ++ bs) h2]
    simp

theorem runScriptsLoop_fatal (fuel : Nat) (W : Int) (sep : Str) (args : ScriptArgs) (conn : Conn)
    {scripts : List Script} {bss : List (List Str)}
    (hsplit : List.Forall₂ (fun s bs => scriptBatches fuel W sep args s = .ok bs) scripts bss) :
    ∀ (log pre : List Str) (b : Str) (post : List Str), bss.flatten = pre ++ b :: post →
      (∀ x ∈ pre, isFatal conn x = false) → isFatal conn b = true →
      runScriptsLoop fuel W sep args conn scripts log
        = .ok { submitted := log ++ pre ++ [b], err := conn b } := by
  induction hsplit with
  | nil => intro log pre b post h; simp at h
  | @cons s bs scripts bss hs _ ih =>
    intro log pre b post h hpre hb
    rw [List.flatten_cons] at h
    obtain ⟨e, he⟩ := Option.isSome_iff_exists.mp (isSome_of_isFatal hb)
    rcases List.append_eq_append_iff.mp h with ⟨a, ha1, ha2⟩ | ⟨c, hc1, hc2⟩
    · -- the fatal batch belongs to a later script
      have h1 : ∀ x ∈ bs, isFatal conn x = false := fun x hx => hpre x (by simp [ha1, hx])
      have h2 : ∀ x ∈ a, isFatal conn x = false := fun x hx => hpre x (by simp [ha1, hx])
      simp only [runScriptsLoop, hs, execBatches_clean conn bs log h1,
        ih (log ++ bs) a b post ha2 h2 hb, ha1]
      simp
    · cases c with
      | nil =>
        simp only [List.append_nil, List.nil_append] at hc1 hc2
        subst hc1
        simp only [runScriptsLoop, hs, execBatches_clean conn bs log hpre,
          ih (log ++ bs) [] b post hc2.symm (by simp) hb]
        simp
      | cons c0 c =>
        simp only [List.cons_append, List.cons.injEq] at hc2
        obtain ⟨rfl, -⟩ := hc2
        simp only [runScriptsLoop, hs, hc1, execBatches_fatal conn b c hb pre log hpre, he]

/-! ## Lemmas on the `USE` pattern -/

theorem take_length_sub (m a : Str) : (m ++ a).take ((m ++ a).length - a.length) = m := by
  have : (m ++ a).length - a.length = m.length := by simp
  rw [this, List.take_left']
  rfl

theorem reName_bracketed (pre name rest : Str) (hne : name ≠ [])
    (hname : ∀ c ∈ name, reNameChar c = true) :
    reName pre ('[' :: (name ++ ']' :: rest))
      = some { text := pre ++ '[' :: (name ++ [']']), openingBracket := ['['], rest := rest } := by
  cases name with
  | nil => exact absurd rfl hne
  | cons n0 name =>
    have h0 : reNameChar n0 = true := hname n0 (by simp)
    have hd : ((n0 :: name) ++ ']' :: rest).dropWhile reNameChar = ']' :: rest := by
      rw [List.dropWhile_append_of_pos hname]
      exact List.dropWhile_cons_of_neg (by decide)
    have ht := take_length_sub ('[' :: ((n0 :: name) ++ [']'])) rest
    simp only [List.cons_append, List.append_assoc, List.singleton_append,
      List.nil_append] at ht hd
    simp only [reName, List.cons_append, List.head?_cons, Option.map_some', h0, and_self,
      if_true, hd, reClose, ht]

theorem reName_plain (pre name rest : Str) (hne : name ≠ [])
    (hname : ∀ c ∈ name, reNameChar c = true) (hhead : name.head? ≠ some '[')
    (hrest : ∀ c, rest.head? = some c → reNameChar c = false ∧ c ≠ ']') :
    reName pre (name ++ rest)
      = some { text := pre ++ name, openingBracket := [], rest := rest } := by
  cases name with
  | nil => exact absurd rfl hne
  | cons n0 name =>
    have h0 : reNameChar n0 = true := hname n0 (by simp)
    have hn0 : n0 ≠ '[' := by simpa using hhead
    have hname1 : ∀ c ∈ name, reNameChar c = true := fun c hc => hname c (by simp [hc])
    have hd : (name ++ rest).dropWhile reNameChar = rest := by
      rw [List.dropWhile_append_of_pos hname1]
      cases rest with
      | nil => rfl
      | cons r0 rest =>
        exact List.dropWhile_cons_of_neg (by simp [(hrest r0 rfl).1])
    have hc : reClose rest = rest := by
      cases rest with
      | nil => rfl
      | cons r0 rest =>
        have := (hrest r0 rfl).2
        unfold reClose
        split
        · rename_i heq
          simp only [List.cons.injEq] at heq
          exact absurd heq.1 this
        · rfl
    have ht := take_length_sub (n0 :: name) rest
    simp only [List.cons_append] at ht
    simp only [reName, List.cons_append, hn0, false_and, if_false, h0, if_true, hd, hc, ht]

theorem not_reSpace_of_reNameChar {c : Char} (h : reNameChar c = true) : reSpace c = false := by
  unfold reNameChar at h
  cases hs : reSpace c with
  | false => rfl
  | true => simp [hs] at h

/-- The start of a match: white space, the keyword, white space, and then the
text `body` that starts with a character which is no white space. -/
theorem reFind_start (ws sp body : Str) (u s e b0 : Char)
    (hws : ∀ c ∈ ws, reSpace c = true) (hu : reU u = true) (hs : reS s = true)
    (he : reE e = true) (hsp : sp ≠ []) (hsps : ∀ c ∈ sp, reSpace c = true)
    (hb : body.head? = some b0) (hb0 : reSpace b0 = false) :
    reFind (ws ++ [u, s, e] ++ sp ++ body) = reName (ws ++ [u, s, e] ++ sp) body := by
  cases sp with
  | nil => exact absurd rfl hsp
  | cons sp0 sp =>
    cases body with
    | nil => simp at hb
    | cons b body =>
      simp only [List.head?_cons, Option.some.injEq] at hb
      subst hb
      have hun : ¬ reSpace u = true := by
        unfold reU at hu
        unfold reSpace
        simp only [Bool.or_eq_true, decide_eq_true_eq] at hu
        rcases hu with rfl | rfl <;> decide
      have hsp0 : reSpace sp0 = true := hsps sp0 (by simp)
      have hsp1 : ∀ c ∈ sp, reSpace c = true := fun c hc => hsps c (by simp [hc])
      have e1 : ws ++ [u, s, e] ++ (sp0 :: sp) ++ b :: body
          = ws ++ (u :: s :: e :: sp0 :: (sp ++ b :: body)) := by simp
      have hbn : ¬ reSpace b = true := by simp [hb0]
      have d1 : (ws ++ (u :: s :: e :: sp0 :: (sp ++ b :: body))).dropWhile reSpace
          = u :: s :: e :: sp0 :: (sp ++ b :: body) := by
        rw [List.dropWhile_append_of_pos hws]
        exact List.dropWhile_cons_of_neg hun
      have t1 : (ws ++ (u :: s :: e :: sp0 :: (sp ++ b :: body))).takeWhile reSpace = ws := by
        rw [List.takeWhile_append_of_pos hws, List.takeWhile_cons_of_neg hun]
        simp
      have d2 : (sp ++ b :: body).dropWhile reSpace = b :: body := by
        rw [List.dropWhile_append_of_pos hsp1]
        exact List.dropWhile_cons_of_neg hbn
      have t2 : (sp ++ b :: body).takeWhile reSpace = sp := by
        rw [List.takeWhile_append_of_pos hsp1, List.takeWhile_cons_of_neg hbn]
        simp
      rw [e1]
      simp only [reFind, d1, t1, d2, t2, hu, hs, he, hsp0, and_self, if_true]
      simp

/-- Every match starts with white space, the keyword, white space and a name
character. -/
theorem reFind_some_shape {sql : Str} {m : UseMatch} (h : reFind sql = some m) :
    ∃ (ws sp tail : Str) (u s e c : Char),
      (∀ x ∈ ws, reSpace x = true) ∧ reU u = true ∧ reS s = true ∧ reE e = true ∧
      sp ≠ [] ∧ (∀ x ∈ sp, reSpace x = true) ∧ reNameChar c = true ∧
      sql = ws ++ [u, s, e] ++ sp ++ c :: tail := by
  unfold reFind at h
  have hsplit := List.takeWhile_append_dropWhile reSpace sql
  have hws : ∀ x ∈ sql.takeWhile reSpace, reSpace x = true :=
    fun x hx => List.mem_takeWhile_imp hx
  generalize sql.takeWhile reSpace = ws at h hsplit hws
  generalize sql.dropWhile reSpace = d at h hsplit
  match d, h with
  | u :: s :: e :: sp0 :: t, h =>
    simp only at h
    split at h
    · rename_i hc
      obtain ⟨hu, hs, he, hsp0⟩ := hc
      have hsplit2 := List.takeWhile_append_dropWhile reSpace t
      have hsp : ∀ x ∈ t.takeWhile reSpace, reSpace x = true :=
        fun x hx => List.mem_takeWhile_imp hx
      generalize t.takeWhile reSpace = sp at h hsplit2 hsp
      generalize t.dropWhile reSpace = body at h hsplit2
      cases body with
      | nil => simp [reName] at h
      | cons c tail =>
        have hc : reNameChar c = true := by
          unfold reName at h
          simp only at h
          split at h
          · rename_i hb
            rw [hb.1]; decide
          · split at h
            · assumption
            · simp at h
        refine ⟨ws, sp0 :: sp, tail, u, s, e, c, hws, hu, hs, he, by simp, ?_, hc, ?_⟩
        · intro x hx
          rcases List.mem_cons.mp hx with rfl | hx
          · exact hsp0
          · exact hsp x hx
        · rw [← hsplit, ← hsplit2]; simp
    · simp at h

/-! ## Lemmas on `TrimSpace` -/

theorem TrimSpace_eq (s : Str) :
    TrimSpace s = List.rdropWhile isSpace (s.dropWhile isSpace) := rfl

theorem TrimSpace_inside (s : Str) : TrimSpace s <:+: s := by
  rw [TrimSpace_eq]
  exact (List.rdropWhile_prefix isSpace _).isInfix.trans
    (List.dropWhile_suffix isSpace).isInfix

theorem dropWhile_head_false {p : Char → Bool} :
    ∀ {l : Str} {c : Char} {t : Str}, l.dropWhile p = c :: t → p c = false
  | [], _, _, h => by simp at h
  | a :: l, c, t, h => by
    rw [List.dropWhile_cons] at h
    split at h
    · exact dropWhile_head_false h
    · rename_i hpa
      simp only [List.cons.injEq] at h
      rw [← h.1]
      simpa using hpa

/-- A trimmed string that is not empty starts with a character that is no
white space. -/
theorem TrimSpace_head {s : Str} {c : Char} {t : Str} (h : TrimSpace s = c :: t) :
    isSpace c = false := by
  rw [TrimSpace_eq] at h
  cases hd : s.dropWhile isSpace with
  | nil => rw [hd] at h; simp [List.rdropWhile] at h
  | cons d ds =>
    rw [hd] at h
    have hp : c :: t <+: d :: ds := h ▸ List.rdropWhile_prefix isSpace (d :: ds)
    have : c = d := by
      obtain ⟨z, hz⟩ := hp
      simp only [List.cons_append, List.cons.injEq] at hz
      exact hz.1
    rw [this]
    exact dropWhile_head_false hd

theorem TrimSpace_idem (s : Str) : TrimSpace (TrimSpace s) = TrimSpace s := by
  cases h : TrimSpace s with
  | nil => rfl
  | cons c t =>
    have hc := TrimSpace_head h
    have h1 : (c :: t).dropWhile isSpace = c :: t :=
      List.dropWhile_cons_of_neg (by simp [hc])
    rw [TrimSpace_eq, h1, ← h, TrimSpace_eq, List.rdropWhile_idempotent]

/-! ## Lemmas on `splitBatches` -/

theorem splitBatchesLoop_step (n : Nat) (done : List Str) (b : Str) (todo : List Str) :
    splitBatchesLoop (n + 1) done.length (done ++ b :: todo)
      = if TrimSpace b = [] then splitBatchesLoop n (done.length + 1) (done ++ todo)
        else splitBatchesLoop n (done.length + 1) (done ++ TrimSpace b :: todo) := by
  have h1 : (done ++ b :: todo)[done.length]? = some b := by
    rw [List.getElem?_append_right (Nat.le_refl _)]; simp
  have h2 : (done ++ b :: todo).set done.length (TrimSpace b) = done ++ TrimSpace b :: todo := by
    simp
  have h3 : (done ++ TrimSpace b :: todo).eraseIdx done.length = done ++ todo := by
    rw [List.eraseIdx_append_of_length_le (Nat.le_refl _)]; simp
  simp only [splitBatchesLoop, h1, h2, h3]

/-- Once the slice is shorter than the index the loop still has to reach, the
loop panics. -/
theorem splitBatchesLoop_short :
    ∀ (n i : Nat) (bs : List Str), bs.length < i + (n + 1) →
      splitBatchesLoop (n + 1) i bs = .panic
  | 0, i, bs, h => by
    have : bs[i]? = none := List.getElem?_eq_none (by omega)
    simp [splitBatchesLoop, this]
  | n + 1, i, bs, h => by
    unfold splitBatchesLoop
    cases hb : bs[i]? with
    | none => rfl
    | some b =>
      simp only
      split
      · exact splitBatchesLoop_short n (i + 1) _ (by
          have := List.length_eraseIdx_le (bs.set i (TrimSpace b)) i
          simp only [List.length_set] at this
          omega)
      · exact splitBatchesLoop_short n (i + 1) _ (by simp only [List.length_set]; omega)

theorem splitBatchesLoop_good (sep : Str) :
    ∀ (todo done segs : List Str), (∀ x ∈ done, GoodSegment sep x) →
      (∀ x ∈ todo, SepFree sep x) →
      splitBatchesLoop todo.length done.length (done ++ todo) = .ok segs →
      ∀ x ∈ segs, GoodSegment sep x
  | [], done, segs, hd, _, h => by
    simp only [List.length_nil, splitBatchesLoop, List.append_nil, Res.ok.injEq] at h
    exact h ▸ hd
  | b :: todo, done, segs, hd, ht, h => by
    rw [List.length_cons, splitBatchesLoop_step] at h
    split at h
    · cases todo with
      | nil =>
        simp only [List.length_nil, splitBatchesLoop, List.append_nil, Res.ok.injEq] at h
        exact h ▸ hd
      | cons c todo =>
        rw [List.length_cons, splitBatchesLoop_short _ _ _ (by simp)] at h
        exact absurd h (by simp)
    · rename_i hb
      have hgood : GoodSegment sep (TrimSpace b) :=
        ⟨TrimSpace_idem b, hb, sepFree_of_infix (TrimSpace_inside b) (ht b (by simp))⟩
      have := splitBatchesLoop_good sep todo (done ++ [TrimSpace b]) segs
        (by
          intro x hx
          rcases List.mem_append.mp hx with hx | hx
          · exact hd x hx
          · simp only [List.mem_singleton] at hx
            exact hx ▸ hgood)
        (fun x hx => ht x (List.mem_cons_of_mem _ hx))
      simp only [List.length_append, List.length_singleton, List.append_assoc,
        List.singleton_append] at this
      exact this h

theorem splitBatchesLoop_trimmed :
    ∀ (todo done : List Str), (∀ x ∈ todo, TrimSpace x = x ∧ x ≠ []) →
      splitBatchesLoop todo.length done.length (done ++ todo) = .ok (done ++ todo)
  | [], done, _ => by simp [splitBatchesLoop]
  | b :: todo, done, h => by
    obtain ⟨hb1, hb2⟩ := h b (by simp)
    have := splitBatchesLoop_trimmed todo (done ++ [b])
      (fun x hx => h x (List.mem_cons_of_mem _ hx))
    simp only [List.length_append, List.length_singleton, List.append_assoc,
      List.singleton_append] at this
    rw [List.length_cons, splitBatchesLoop_step, hb1, if_neg hb2, this]

/-- Every piece of a split is free of the separator; the piece being read is
a prefix of the text. -/
theorem splitGo_pieces {sep : Str} (hne : sep ≠ []) :
    ∀ (s : Str) (k : Nat), (∀ x ∈ splitGo sep k s, SepFree sep x) ∧
      (k = 0 → ∃ seg segs, splitGo sep 0 s = seg :: segs ∧ seg <+: s)
  | [], k => by
    have hnil : SepFree sep [] := by
      intro hi
      have := hi.length_le
      simp only [List.length_nil, Nat.le_zero_eq] at this
      exact hne (List.length_eq_zero.mp this)
    refine ⟨?_, fun _ => ⟨[], [], by cases k <;> rfl, List.prefix_refl _⟩⟩
    intro x hx
    have : x = [] := by cases k <;> simpa [splitGo] using hx
    exact this ▸ hnil
  | c :: t, k + 1 => by
    refine ⟨?_, fun h => absurd h (by simp)⟩
    simpa [splitGo] using (splitGo_pieces hne t k).1
  | c :: t, 0 => by
    have hnil : SepFree sep [] := by
      intro hi
      have := hi.length_le
      simp only [List.length_nil, Nat.le_zero_eq] at this
      exact hne (List.length_eq_zero.mp this)
    by_cases hp : sep <+: c :: t
    · have hb : sep.isPrefixOf (c :: t) = true := List.isPrefixOf_iff_prefix.mpr hp
      have e : splitGo sep 0 (c :: t) = [] :: splitGo sep (sep.length - 1) t := by
        simp [splitGo, hb]
      rw [e]
      refine ⟨?_, fun _ => ⟨[], _, rfl, List.nil_prefix⟩⟩
      intro x hx
      rcases List.mem_cons.mp hx with rfl | hx
      · exact hnil
      · exact (splitGo_pieces hne t _).1 x hx
    · rw [splitGo_no_match hp]
      obtain ⟨hall, hhead⟩ := splitGo_pieces hne t 0
      obtain ⟨seg, segs, hs, hseg⟩ := hhead rfl
      rw [hs] at hall ⊢
      have hcs : c :: seg <+: c :: t := by
        obtain ⟨z, hz⟩ := hseg
        exact ⟨z, by simp [hz]⟩
      refine ⟨?_, fun _ => ⟨c :: seg, segs, rfl, hcs⟩⟩
      intro x hx
      simp only [consHead, List.mem_cons] at hx
      rcases hx with rfl | hx
      · intro hi
        rcases List.infix_cons_iff.mp hi with h1 | h1
        · exact hp (h1.trans hcs)
        · exact hall seg (by simp) h1
      · exact hall x (by simp [hx])

theorem Split_sepFree {sep : Str} (hne : sep ≠ []) (s : Str) :
    ∀ x ∈ Split s sep, SepFree sep x := by
  simp only [Split, hne, if_false]
  exact (splitGo_pieces hne s 0).1

/-! ## Lemmas on the sliding window -/

theorem readdComma_concat : ∀ (ws : List Str) (x : Str),
    readdComma (ws ++ [x]) = ws ++ [x ++ comma]
  | [], _ => rfl
  | [a], x => rfl
  | a :: b :: ws, x => by
    have := readdComma_concat (b :: ws) x
    simp only [List.cons_append] at this ⊢
    rw [readdComma, this]

theorem restoreRows_concat (done : List Str) (b : Str) :
    restoreRows (done ++ [b]) = restoreNonFinal done ++ restoreRows [b] := by
  induction done with
  | nil => rfl
  | cons a done ih =>
    cases done with
    | nil => simp [restoreRows, restoreNonFinal]
    | cons c done =>
      simp only [List.cons_append] at ih ⊢
      show readdComma (batchLines a) ++ restoreRows (c :: (done ++ [b])) = _
      rw [ih]
      simp only [restoreNonFinal, List.append_assoc]

theorem restoreNonFinal_concat (done : List Str) (b : Str) :
    restoreNonFinal (done ++ [b]) = restoreNonFinal done ++ readdComma (batchLines b) := by
  induction done with
  | nil => simp [restoreNonFinal]
  | cons a done ih => simp [restoreNonFinal, ih]

theorem Join_concat_append : ∀ (ws : List Str) (x y sep : Str),
    Join (ws ++ [x ++ y]) sep = Join (ws ++ [x]) sep ++ y
  | [], _, _, _ => rfl
  | [a], x, y, sep => by simp [Join]
  | a :: b :: ws, x, y, sep => by
    have := Join_concat_append (b :: ws) x y sep
    simp only [List.cons_append] at this ⊢
    rw [Join, Join, this]
    simp

theorem trimPrevious_concat (done : List Str) (b : Str) :
    trimPrevious (done ++ [b]) = done ++ [TrimSuffix (TrimSpace b) comma] := by
  have h1 : (done ++ [b]).length - 1 = done.length := by simp
  have h2 : (done ++ [b])[done.length]? = some b := by
    rw [List.getElem?_append_right (Nat.le_refl _)]; simp
  simp [trimPrevious, h1, h2]

theorem TrimSuffix_concat (z : Str) (c : Char) :
    TrimSuffix (z ++ [c]) comma = if c = ',' then z else z ++ [c] := by
  by_cases hc : c = ','
  · subst hc
    simp [TrimSuffix, HasSuffix, comma]
  · have hc1 : ¬ ',' = c := fun h => hc h.symm
    simp [TrimSuffix, HasSuffix, comma, hc, hc1]

/-- `TrimSpace` of a text that starts with a non-blank header and ends with a
character that is no white space only trims the front of the header. -/
theorem TrimSpace_header (H p : Str) (c : Char) (hH : TrimSpace H ≠ [])
    (hc : isSpace c = false) :
    TrimSpace (H ++ p ++ [c]) = H.dropWhile isSpace ++ p ++ [c] := by
  have hd : H.dropWhile isSpace ≠ [] := by
    intro h
    apply hH
    rw [TrimSpace_eq, h]
    rfl
  have h1 : (H ++ (p ++ [c])).dropWhile isSpace = H.dropWhile isSpace ++ (p ++ [c]) := by
    rw [List.dropWhile_append]
    simp [hd]
  rw [TrimSpace_eq, List.append_assoc, h1, ← List.append_assoc,
    List.rdropWhile_concat_neg _ _ _ (by simp [hc])]

/-- The lines after the header of a header followed by newline-free lines. -/
theorem batchLines_header (H : Str) (win : List Str) (hH : '\n' ∉ H) (hwin : win ≠ [])
    (hw : ∀ x ∈ win, '\n' ∉ x) :
    batchLines (H ++ nl ++ Join win nl) = win := by
  have hj : Join (H :: win) nl = H ++ nl ++ Join win nl := by
    cases win with
    | nil => exact absurd rfl hwin
    | cons a win => rfl
  have := Split_Join (by decide : nl ≠ []) unbordered_nl (H :: win) (by simp)
    (by
      intro x hx
      rcases List.mem_cons.mp hx with rfl | hx
      · exact sepFree_nl hH
      · exact sepFree_nl (hw x hx))
  rw [hj] at this
  rw [batchLines, this]
  rfl

/-- A row that is not blank and has no trailing white space ends with a
character that is no white space. -/
theorem row_last_char {r : Str} (hb : TrimSpace r ≠ []) (ht : TrimRightSpace r = r) :
    ∃ (x : Str) (c : Char), r = x ++ [c] ∧ isSpace c = false := by
  have hne : r ≠ [] := by
    rintro rfl
    exact hb rfl
  have h := (List.rdropWhile_eq_self_iff (p := isSpace) (l := r)).mp ht hne
  exact ⟨r.dropLast, r.getLast hne, (List.dropLast_append_getLast hne).symm, by simpa using h⟩

theorem HasSuffix_concat_comma (x : Str) (c : Char) :
    HasSuffix (x ++ [c]) comma = true ↔ c = ',' := by
  constructor
  · intro h
    by_contra hc
    have hc1 : ¬ ',' = c := fun h => hc h.symm
    simp [HasSuffix, comma, hc1] at h
  · rintro rfl
    simp [HasSuffix, comma]

theorem wrapInt_eq {x : Int} (h0 : -9223372036854775808 ≤ x) (h1 : x < 9223372036854775808) :
    wrapInt x = x := by
  unfold wrapInt; omega

theorem windowLoop_done (W : Int) (lines : List Str) (header : Str) (fuel : Nat) (l r : Int)
    (batches : List Str) (h : (lines.length : Int) ≤ l) :
    windowLoop W lines header fuel l r batches = .ok batches := by
  have : ¬ l < (lines.length : Int) := by omega
  cases fuel <;> simp [windowLoop, this]

theorem windowLoop_unfold (W : Int) (lines : List Str) (header : Str) (fuel : Nat)
    (l r r1 : Int) (batches : List Str) (line : Str) (window : List Str)
    (hl : l < lines.length) (hget : lineAt lines l = some line)
    (hr : r1 = if r ≥ lines.length then (lines.length : Int) - 1 else r)
    (hslice : sliceLines lines l (wrapInt (r1 + 1)) = some window) :
    windowLoop W lines header (fuel + 1) l r batches
      = if l = r1 ∧ TrimSpace line = [] then .ok (trimPrevious batches)
        else windowLoop W lines header fuel (wrapInt (r1 + 1)) (wrapInt (r1 + W))
          (trimPrevious batches ++ [header ++ Join window nl]) := by
  subst hr
  rw [windowLoop]
  simp only [hl, if_true, hget, hslice, Option.map_some']
  by_cases h1 : l = if r ≥ (lines.length : Int) then (lines.length : Int) - 1 else r
  · by_cases h2 : TrimSpace line = []
    · simp [h1, h2]
    · simp [← h1, h2]
  · simp [h1]

/-- One iteration of the loop, at the line `a0` that follows the lines `cr`
already emitted, with a window of nominal length `k`, when the line count and
the width stay in the range of `int`. -/
theorem windowLoop_step (W : Nat) (H header : Str) (cr : List Str) (a0 : Str)
    (rem : List Str) (k fuel : Nat) (batches : List Str) (hk : 1 ≤ k)
    (hb : (H :: (cr ++ a0 :: rem)).length + W < 9223372036854775808) :
    windowLoop (W : Int) (H :: (cr ++ a0 :: rem)) header (fuel + 1)
        ((cr.length + 1 : Nat) : Int) ((cr.length + k : Nat) : Int) batches
      = if (k = 1 ∨ rem = []) ∧ TrimSpace a0 = [] then .ok (trimPrevious batches)
        else windowLoop (W : Int) (H :: (cr ++ a0 :: rem)) header fuel
          (((cr ++ (a0 :: rem).take k).length + 1 : Nat) : Int)
          (((cr ++ (a0 :: rem).take k).length + W : Nat) : Int)
          (trimPrevious batches ++ [header ++ Join ((a0 :: rem).take k) nl]) := by
  have hL : (H :: (cr ++ a0 :: rem)).length = cr.length + rem.length + 2 := by
    simp; omega
  have hget : (H :: (cr ++ a0 :: rem))[cr.length + 1]? = some a0 := by
    rw [List.getElem?_cons_succ, List.getElem?_append_right (Nat.le_refl _)]
    simp
  have hdrop : (H :: (cr ++ a0 :: rem)).drop (cr.length + 1) = a0 :: rem := by
    rw [List.drop_succ_cons, List.drop_left]
  have hlen : (cr ++ (a0 :: rem).take k).length = cr.length + min k (rem.length + 1) := by
    simp
  have hl : (((cr.length + 1 : Nat) : Int)) < ((H :: (cr ++ a0 :: rem)).length : Int) := by
    rw [hL]; omega
  have hline : lineAt (H :: (cr ++ a0 :: rem)) ((cr.length + 1 : Nat) : Int) = some a0 := by
    have h0 : (0 : Int) ≤ ((cr.length + 1 : Nat) : Int) := by omega
    rw [lineAt, if_pos h0, Int.toNat_ofNat, hget]
  have hr : (((cr ++ (a0 :: rem).take k).length : Nat) : Int)
      = if ((cr.length + k : Nat) : Int) ≥ ((H :: (cr ++ a0 :: rem)).length : Int)
        then ((H :: (cr ++ a0 :: rem)).length : Int) - 1 else ((cr.length + k : Nat) : Int) := by
    rw [hlen, hL]
    split_ifs <;> omega
  have hw1 : wrapInt ((((cr ++ (a0 :: rem).take k).length : Nat) : Int) + 1)
      = (((cr ++ (a0 :: rem).take k).length + 1 : Nat) : Int) := by
    rw [hL] at hb
    rw [wrapInt_eq (by omega) (by rw [hlen]; omega)]
    omega
  have hw2 : wrapInt ((((cr ++ (a0 :: rem).take k).length : Nat) : Int) + (W : Int))
      = (((cr ++ (a0 :: rem).take k).length + W : Nat) : Int) := by
    rw [hL] at hb
    rw [wrapInt_eq (by omega) (by rw [hlen]; omega)]
    omega
  have ht : (a0 :: rem).take ((cr ++ (a0 :: rem).take k).length + 1 - (cr.length + 1))
      = (a0 :: rem).take k := by
    have : (cr ++ (a0 :: rem).take k).length + 1 - (cr.length + 1)
        = min k (a0 :: rem).length := by
      rw [hlen]; simp
    rw [this, List.take_eq_take]
    simp
  have hslice : sliceLines (H :: (cr ++ a0 :: rem)) ((cr.length + 1 : Nat) : Int)
      (wrapInt ((((cr ++ (a0 :: rem).take k).length : Nat) : Int) + 1))
      = some ((a0 :: rem).take k) := by
    have hcnd : (0 : Int) ≤ ((cr.length + 1 : Nat) : Int) ∧
        ((cr.length + 1 : Nat) : Int) ≤ (((cr ++ (a0 :: rem).take k).length + 1 : Nat) : Int) ∧
        (((cr ++ (a0 :: rem).take k).length + 1 : Nat) : Int)
          ≤ ((H :: (cr ++ a0 :: rem)).length : Int) := by
      rw [hlen, hL]; omega
    rw [hw1, sliceLines, if_pos hcnd, Int.toNat_ofNat, Int.toNat_ofNat, hdrop, ht]
  rw [windowLoop_unfold (W : Int) _ header fuel _ _ _ batches a0 _ hl hline hr hslice, hw1, hw2]
  have hcond : (((cr.length + 1 : Nat) : Int) = (((cr ++ (a0 :: rem).take k).length : Nat) : Int))
      ↔ (k = 1 ∨ rem = []) := by
    rw [hlen]
    constructor
    · intro h
      by_cases h1 : k = 1
      · exact Or.inl h1
      · right
        exact List.length_eq_zero.mp (by omega)
    · rintro (h | h)
      · omega
      · subst h
        simp only [List.length_nil]
        omega
  simp only [hcond]

/-- The first iteration of the loop, when the line count and the width stay in
the range of `int`: the window has the nominal length `W + 1`. -/
theorem windowLoop_first (W : Nat) (H header : Str) (a0 : Str) (rem : List Str) (fuel : Nat)
    (hb : (H :: a0 :: rem).length + W < 9223372036854775808) :
    windowLoop (W : Int) (H :: a0 :: rem) header (fuel + 1) 1 (wrapInt (1 + (W : Int))) []
      = if (W + 1 = 1 ∨ rem = []) ∧ TrimSpace a0 = [] then .ok []
        else windowLoop (W : Int) (H :: a0 :: rem) header fuel
          ((((a0 :: rem).take (W + 1)).length + 1 : Nat) : Int)
          ((((a0 :: rem).take (W + 1)).length + W : Nat) : Int)
          [header ++ Join ((a0 :: rem).take (W + 1)) nl] := by
  have h := windowLoop_step W H header [] a0 rem (W + 1) fuel [] (by omega)
    (by simpa using hb)
  have e1 : wrapInt (1 + (W : Int)) = ((([] : List Str).length + (W + 1) : Nat) : Int) := by
    simp only [List.length_cons] at hb
    rw [wrapInt_eq (by omega) (by omega)]
    simp only [List.length_nil]
    omega
  rw [e1]
  exact h

theorem not_mem_of_prefix {x y : Str} (h : x <+: y) (hy : '\n' ∉ y) : '\n' ∉ x :=
  fun hx => hy (h.subset hx)

theorem not_mem_dropWhile {y : Str} (hy : '\n' ∉ y) : '\n' ∉ y.dropWhile isSpace :=
  fun hx => hy ((List.dropWhile_suffix isSpace).subset hx)

/-- The text of a batch whose last row ends with a character that is no white
space, after `TrimSpace` and `TrimSuffix`. -/
theorem trim_batch (H : Str) (ws : List Str) (x : Str) (c : Char)
    (hH : TrimSpace H ≠ []) (hc : isSpace c = false) :
    TrimSuffix (TrimSpace (H ++ nl ++ Join (ws ++ [x ++ [c]]) nl)) comma
      = if c = ',' then H.dropWhile isSpace ++ nl ++ Join (ws ++ [x]) nl
        else H.dropWhile isSpace ++ nl ++ Join (ws ++ [x ++ [c]]) nl := by
  have e : H ++ nl ++ Join (ws ++ [x ++ [c]]) nl
      = H ++ (nl ++ Join (ws ++ [x]) nl) ++ [c] := by
    rw [Join_concat_append]; simp
  rw [e, TrimSpace_header H _ c hH hc, TrimSuffix_concat]
  split_ifs
  · simp
  · rw [Join_concat_append]; simp

theorem restore_trimmed_comma {H : Str} {rows tl : List Str} (hs : DumpShape H rows tl)
    (ws : List Str) (x : Str) (hws : ∀ y ∈ ws, y ∈ rows) (hx : x ∈ rows)
    (hcomma : HasSuffix x comma = true) :
    readdComma (batchLines (TrimSuffix (TrimSpace (H ++ nl ++ Join (ws ++ [x]) nl)) comma))
      = ws ++ [x] := by
  obtain ⟨x1, c, rfl, hc⟩ := row_last_char (hs.row_text x hx) (hs.row_end x hx)
  have hcc : c = ',' := (HasSuffix_concat_comma x1 c).mp hcomma
  have hx1 : '\n' ∉ x1 := not_mem_of_prefix (List.prefix_append x1 [c]) (hs.row_line _ hx)
  rw [trim_batch H ws x1 c hs.header_text hc, if_pos hcc,
    batchLines_header _ _ (not_mem_dropWhile hs.header_line) (by simp)
      (by
        intro y hy
        rcases List.mem_append.mp hy with hy | hy
        · exact hs.row_line y (hws y hy)
        · simp only [List.mem_singleton] at hy
          exact hy ▸ hx1),
    readdComma_concat, hcc]
  rfl

theorem restore_trimmed_plain {H : Str} {rows tl : List Str} (hs : DumpShape H rows tl)
    (ws : List Str) (x : Str) (hws : ∀ y ∈ ws, y ∈ rows) (hx : x ∈ rows)
    (hcomma : ¬ HasSuffix x comma = true) :
    (batchLines (TrimSuffix (TrimSpace (H ++ nl ++ Join (ws ++ [x]) nl)) comma)).filter
        (fun l => !isBlank l)
      = ws ++ [x] := by
  obtain ⟨x1, c, rfl, hc⟩ := row_last_char (hs.row_text x hx) (hs.row_end x hx)
  have hcc : ¬ c = ',' := fun h => hcomma ((HasSuffix_concat_comma x1 c).mpr h)
  have hall : ∀ y ∈ ws ++ [x1 ++ [c]], y ∈ rows := by
    intro y hy
    rcases List.mem_append.mp hy with hy | hy
    · exact hws y hy
    · simp only [List.mem_singleton] at hy
      exact hy ▸ hx
  rw [trim_batch H ws x1 c hs.header_text hc, if_neg hcc,
    batchLines_header _ _ (not_mem_dropWhile hs.header_line) (by simp)
      (fun y hy => hs.row_line y (hall y hy)),
    List.filter_eq_self]
  intro y hy
  simp [isBlank, hs.row_text y (hall y hy)]

/-- The rows of an untrimmed batch that holds rows and, possibly, the trailing
blank line. -/
theorem restore_raw {H : Str} {rows tl : List Str} (hs : DumpShape H rows tl)
    (a t : List Str) (ha : ∀ y ∈ a, y ∈ rows) (ht : ∀ y ∈ t, y ∈ tl) (hne : a ++ t ≠ []) :
    (batchLines (H ++ nl ++ Join (a ++ t) nl)).filter (fun l => !isBlank l) = a := by
  rw [batchLines_header _ _ hs.header_line hne
      (by
        intro y hy
        rcases List.mem_append.mp hy with hy | hy
        · exact hs.row_line y (ha y hy)
        · exact hs.tl_line y (ht y hy)),
    List.filter_append]
  have h1 : a.filter (fun l => !isBlank l) = a := by
    rw [List.filter_eq_self]
    intro y hy
    simp [isBlank, hs.row_text y (ha y hy)]
  have h2 : t.filter (fun l => !isBlank l) = [] := by
    rw [List.filter_eq_nil_iff]
    intro y hy
    simp [isBlank, hs.tl_blank y (ht y hy)]
  rw [h1, h2, List.append_nil]

theorem restoreRows_raw {H : Str} {rows tl : List Str} (hs : DumpShape H rows tl)
    (done a t : List Str) (ha : ∀ y ∈ a, y ∈ rows) (ht : ∀ y ∈ t, y ∈ tl) (hne : a ++ t ≠ []) :
    restoreRows (done ++ [H ++ nl ++ Join (a ++ t) nl]) = restoreNonFinal done ++ a := by
  rw [restoreRows_concat]
  simp only [restoreRows]
  rw [restore_raw hs a t ha ht hne]

theorem windowLoop_done_nat (W : Int) (lines : List Str) (header : Str) (fuel n : Nat)
    (r : Int) (batches : List Str) (h : lines.length ≤ n) :
    windowLoop W lines header fuel (n : Int) r batches = .ok batches :=
  windowLoop_done W lines header fuel _ r batches (by exact_mod_cast h)

/-- The iterations after the first one: `cr` holds the rows emitted so far,
`a` the rows still to come, and the last batch, with the rows `win`, has not
been trimmed yet. -/
theorem windowLoop_rest {H : Str} {rows tl : List Str} (hs : DumpShape H rows tl)
    (W : Nat) (hW : 1 ≤ W)
    (hlast : tl ≠ [] → ∀ x, rows.getLast? = some x → ¬ HasSuffix x comma = true)
    (hb : (H :: (rows ++ tl)).length + W < 9223372036854775808) :
    ∀ (fuel : Nat) (cr a done win : List Str), rows = cr ++ a → (a ++ tl).length ≤ fuel →
      win ≠ [] → restoreNonFinal done ++ win = cr →
      ∃ out, windowLoop (W : Int) (H :: (rows ++ tl)) (H ++ nl) fuel
          ((cr.length + 1 : Nat) : Int) ((cr.length + W : Nat) : Int)
          (done ++ [H ++ nl ++ Join win nl]) = .ok out ∧
        restoreRows out = rows := by
  -- the case where every line has been emitted
  have hend : ∀ (fuel : Nat) (cr done win : List Str), rows = cr → tl = [] → win ≠ [] →
      restoreNonFinal done ++ win = cr →
      ∃ out, windowLoop (W : Int) (H :: (rows ++ tl)) (H ++ nl) fuel
          ((cr.length + 1 : Nat) : Int) ((cr.length + W : Nat) : Int)
          (done ++ [H ++ nl ++ Join win nl]) = .ok out ∧
        restoreRows out = rows := by
    intro fuel cr done win hrows htl hwin hres
    refine ⟨_, windowLoop_done_nat _ _ _ _ _ _ _ (by simp [hrows, htl]), ?_⟩
    have hsub : ∀ y ∈ win, y ∈ rows := fun y hy => by
      rw [hrows, ← hres]; exact List.mem_append_right _ hy
    have := restoreRows_raw hs done win [] hsub (by simp) (by simpa using hwin)
    rw [List.append_nil] at this
    rw [this, hres, hrows]
  intro fuel
  induction fuel with
  | zero =>
    intro cr a done win hrows hfuel hwin hres
    have h0 : a.length + tl.length = 0 := by
      rw [← List.length_append]; exact Nat.le_zero.mp hfuel
    have ha : a = [] := List.length_eq_zero.mp (by omega)
    have htl : tl = [] := List.length_eq_zero.mp (by omega)
    exact hend 0 cr done win (by simp [hrows, ha]) htl hwin hres
  | succ fuel ih =>
    intro cr a done win hrows hfuel hwin hres
    have htlc : tl = [] ∨ ∃ t, tl = [t] := by
      have := hs.tl_length
      match tl, this with
      | [], _ => exact Or.inl rfl
      | [t], _ => exact Or.inr ⟨t, rfl⟩
      | _ :: _ :: _, h => simp at h
    -- the last row of the previous batch
    obtain ⟨x, hx⟩ : ∃ x, win.getLast? = some x := by
      cases hl : win.getLast? with
      | none => exact absurd (List.getLast?_eq_none_iff.mp hl) hwin
      | some x => exact ⟨x, rfl⟩
    obtain ⟨ws, hws⟩ := List.getLast?_eq_some_iff.mp hx
    have hwsub : ∀ y ∈ win, y ∈ rows := fun y hy => by
      rw [hrows, ← hres]
      exact List.mem_append_left _ (List.mem_append_right _ hy)
    have hwsr : ∀ y ∈ ws, y ∈ rows := fun y hy => hwsub y (by rw [hws]; simp [hy])
    have hxr : x ∈ rows := hwsub x (by rw [hws]; simp)
    have htrim := trimPrevious_concat done (H ++ nl ++ Join win nl)
    cases a with
    | nil =>
      have hrows1 : rows = cr := by simpa using hrows
      rcases htlc with htl | ⟨t, htl⟩
      · exact hend (fuel + 1) cr done win hrows1 htl hwin hres
      · -- the trailing blank line is alone in its window: the loop stops
        have hlines : rows ++ tl = cr ++ t :: [] := by rw [hrows1, htl]
        have hb1 := hb
        rw [hlines] at hb1
        have htb : TrimSpace t = [] := hs.tl_blank t (by simp [htl])
        rw [hlines, windowLoop_step W H (H ++ nl) cr t [] W fuel _ hW hb1]
        simp only [or_true, htb, and_self, if_true, htrim]
        refine ⟨_, rfl, ?_⟩
        have hlastx : rows.getLast? = some x := by
          rw [hrows1, ← hres, hws, ← List.append_assoc, List.getLast?_concat]
        have hc : ¬ HasSuffix x comma = true := hlast (by simp [htl]) x hlastx
        rw [restoreRows_concat, hws]
        simp only [restoreRows]
        rw [restore_trimmed_plain hs ws x hwsr hxr hc, ← hws, hres, hrows1]
    | cons a0 a1 =>
      have ha0 : a0 ∈ rows := by rw [hrows]; simp
      have hlines : rows ++ tl = cr ++ a0 :: (a1 ++ tl) := by rw [hrows]; simp
      have hb1 := hb
      rw [hlines] at hb1
      have hnb : ¬ TrimSpace a0 = [] := hs.row_text a0 ha0
      -- the previous batch ends with a row that is not the last one
      have hxc : HasSuffix x comma = true := by
        apply hs.row_comma
        rw [hrows, ← hres, hws,
          List.dropLast_append_of_ne_nil (restoreNonFinal done ++ (ws ++ [x]))
            (List.cons_ne_nil a0 a1)]
        simp
      have hdone : restoreNonFinal (done ++ [TrimSuffix (TrimSpace (H ++ nl ++ Join win nl)) comma])
          = cr := by
        rw [restoreNonFinal_concat, hws, restore_trimmed_comma hs ws x hwsr hxr hxc, ← hws, hres]
      rw [hlines, windowLoop_step W H (H ++ nl) cr a0 (a1 ++ tl) W fuel _ hW hb1]
      simp only [hnb, and_false, if_false, htrim]
      rw [← hlines]
      by_cases hlong : W ≤ (a0 :: a1).length
      · -- a full window of rows
        have htake : (a0 :: (a1 ++ tl)).take W = (a0 :: a1).take W := by
          rw [← List.cons_append, List.take_append_of_le_length hlong]
        rw [htake]
        apply ih (cr ++ (a0 :: a1).take W) ((a0 :: a1).drop W)
        · rw [List.append_assoc, List.take_append_drop]; exact hrows
        · simp only [List.length_append, List.length_drop, List.length_cons] at hfuel ⊢
          omega
        · intro h
          have := congrArg List.length h
          simp only [List.length_take, List.length_cons, List.length_nil] at this
          simp only [List.length_cons] at hlong
          omega
        · rw [hdone]
      · -- the last window: the rows that are left and the trailing line
        have hshort : (a0 :: a1).length < W := by omega
        have htake : (a0 :: (a1 ++ tl)).take W = (a0 :: a1) ++ tl := by
          rw [← List.cons_append]
          apply List.take_of_length_le
          have := hs.tl_length
          rw [List.length_append]
          omega
        rw [htake]
        refine ⟨_, windowLoop_done_nat _ _ _ _ _ _ _ (by simp [hrows]), ?_⟩
        rw [restoreRows_raw hs _ (a0 :: a1) tl
          (fun y hy => by rw [hrows]; exact List.mem_append_right _ hy) (fun y hy => hy)
          (by simp), hdone, hrows]

/-! ## Lemmas on the trailing comma of a batch -/

theorem endsClean_cases {r : Str} (h : endsClean r = true) :
    ∃ (x : Str) (c : Char), r = x ++ [c] ∧ isSpace c = false ∧ c ≠ ',' := by
  unfold endsClean at h
  cases hl : r.getLast? with
  | none => simp [hl] at h
  | some c =>
    obtain ⟨x, hx⟩ := List.getLast?_eq_some_iff.mp hl
    rw [hl] at h
    simp only [Bool.and_eq_true, Bool.not_eq_true', bne_iff_ne, ne_eq] at h
    exact ⟨x, c, hx, h.1, h.2⟩

theorem commaRow_cases {r : Str} (h : commaRow r = true) :
    ∃ (x : Str) (c : Char), r = x ++ [c, ','] ∧ isSpace c = false ∧ c ≠ ',' := by
  unfold commaRow at h
  simp only [Bool.and_eq_true] at h
  obtain ⟨h1, h2⟩ := h
  have hne : r ≠ [] := by
    rintro rfl
    simp [HasSuffix, comma] at h1
  have hr := (List.dropLast_append_getLast hne).symm
  have hc : r.getLast hne = ',' := by
    rw [hr] at h1
    exact (HasSuffix_concat_comma _ _).mp h1
  obtain ⟨x, c, hx, hc1, hc2⟩ := endsClean_cases h2
  refine ⟨x, c, ?_, hc1, hc2⟩
  rw [hr, hc, hx]
  simp

theorem dropWhile_concat (p : Str) (c : Char) (hc : isSpace c = false) :
    ∃ q, (p ++ [c]).dropWhile isSpace = q ++ [c] := by
  rw [List.dropWhile_append]
  split
  · exact ⟨[], by simp [List.dropWhile, hc]⟩
  · exact ⟨_, rfl⟩

theorem TrimSpace_concat (p : Str) (c : Char) (hc : isSpace c = false) :
    ∃ q, TrimSpace (p ++ [c]) = q ++ [c] := by
  obtain ⟨q, hq⟩ := dropWhile_concat p c hc
  exact ⟨q, by rw [TrimSpace_eq, hq, List.rdropWhile_concat_neg _ _ _ (by simp [hc])]⟩

theorem TrimSpace_concat_two (p : Str) (c d : Char) (hc : isSpace c = false)
    (hd : isSpace d = false) : ∃ q, TrimSpace (p ++ [c, d]) = q ++ [c, d] := by
  obtain ⟨q, hq⟩ := dropWhile_concat p c hc
  refine ⟨q, ?_⟩
  have e : p ++ [c, d] = (p ++ [c]) ++ [d] := by simp
  have h1 : ((p ++ [c]) ++ [d]).dropWhile isSpace = (q ++ [c]) ++ [d] := by
    rw [List.dropWhile_append, hq]
    simp
  rw [TrimSpace_eq, e, h1, List.rdropWhile_concat_neg _ _ _ (by simp [hd])]
  simp

theorem rdropWhile_append_spaces (l s : Str) (hs : ∀ x ∈ s, isSpace x = true) :
    List.rdropWhile isSpace (l ++ s) = List.rdropWhile isSpace l := by
  unfold List.rdropWhile
  rw [List.reverse_append, List.dropWhile_append_of_pos (by simpa using hs)]

theorem TrimSpace_append_spaces (p : Str) (c : Char) (s : Str) (hc : isSpace c = false)
    (hs : ∀ x ∈ s, isSpace x = true) : TrimSpace (p ++ [c] ++ s) = TrimSpace (p ++ [c]) := by
  obtain ⟨q, hq⟩ := dropWhile_concat p c hc
  have h1 : (p ++ [c] ++ s).dropWhile isSpace = (p ++ [c]).dropWhile isSpace ++ s := by
    rw [List.dropWhile_append, hq]
    simp
  rw [TrimSpace_eq, h1, rdropWhile_append_spaces _ _ hs, ← TrimSpace_eq]

theorem blank_all_space {t : Str} (h : TrimSpace t = []) : ∀ x ∈ t, isSpace x = true := by
  rw [TrimSpace_eq, List.rdropWhile_eq_nil_iff] at h
  cases hd : t.dropWhile isSpace with
  | nil => exact List.dropWhile_eq_nil_iff.mp hd
  | cons c d =>
    have h1 := dropWhile_head_false hd
    have h2 := h c (by rw [hd]; simp)
    rw [h1] at h2
    exact absurd h2 (by simp)

theorem text_of_endsClean {r : Str} (h : endsClean r = true) : TrimSpace r ≠ [] := by
  obtain ⟨x, c, rfl, hc, -⟩ := endsClean_cases h
  obtain ⟨q, hq⟩ := TrimSpace_concat x c hc
  rw [hq]; simp

theorem text_of_commaRow {r : Str} (h : commaRow r = true) : TrimSpace r ≠ [] := by
  obtain ⟨x, c, rfl, hc, -⟩ := commaRow_cases h
  obtain ⟨q, hq⟩ := TrimSpace_concat_two x c ',' hc (by decide)
  rw [hq]; simp

/-- A trimmed batch whose last row is a comma row does not end in a comma. -/
theorem clean_trimmed_comma (header : Str) (ws : List Str) (x : Str)
    (hx : commaRow x = true) :
    HasSuffix (TrimSpace (TrimSuffix (TrimSpace (header ++ Join (ws ++ [x]) nl)) comma)) comma
      = false := by
  obtain ⟨x1, c, rfl, hc1, hc2⟩ := commaRow_cases hx
  have e : header ++ Join (ws ++ [x1 ++ [c, ',']]) nl
      = (header ++ Join (ws ++ [x1]) nl) ++ [c, ','] := by
    rw [Join_concat_append]; simp
  obtain ⟨q, hq⟩ := TrimSpace_concat_two (header ++ Join (ws ++ [x1]) nl) c ',' hc1 (by decide)
  have e2 : q ++ [c, ','] = (q ++ [c]) ++ [','] := by simp
  obtain ⟨q2, hq2⟩ := TrimSpace_concat q c hc1
  rw [e, hq, e2, TrimSuffix_concat, if_pos rfl, hq2]
  rw [Bool.eq_false_iff]
  intro h
  exact hc2 ((HasSuffix_concat_comma q2 c).mp h)

/-- A trimmed batch whose last row does not end in a comma does not end in a
comma. -/
theorem clean_trimmed_plain (header : Str) (ws : List Str) (x : Str)
    (hx : endsClean x = true) :
    HasSuffix (TrimSpace (TrimSuffix (TrimSpace (header ++ Join (ws ++ [x]) nl)) comma)) comma
      = false := by
  obtain ⟨x1, c, rfl, hc1, hc2⟩ := endsClean_cases hx
  have e : header ++ Join (ws ++ [x1 ++ [c]]) nl
      = (header ++ Join (ws ++ [x1]) nl) ++ [c] := by
    rw [Join_concat_append]; simp
  obtain ⟨q, hq⟩ := TrimSpace_concat (header ++ Join (ws ++ [x1]) nl) c hc1
  obtain ⟨q2, hq2⟩ := TrimSpace_concat q c hc1
  rw [e, hq, TrimSuffix_concat, if_neg hc2, hq2]
  rw [Bool.eq_false_iff]
  intro h
  exact hc2 ((HasSuffix_concat_comma q2 c).mp h)

theorem Join_concat_line : ∀ (ws : List Str) (t sep : Str), ws ≠ [] →
    Join (ws ++ [t]) sep = Join ws sep ++ sep ++ t
  | [], _, _, h => absurd rfl h
  | [a], t, sep, _ => by simp [Join]
  | a :: b :: ws, t, sep, _ => by
    have := Join_concat_line (b :: ws) t sep (by simp)
    simp only [List.cons_append] at this ⊢
    rw [Join, Join, this]
    simp

/-- An untrimmed batch whose last row does not end in a comma, followed or not
by the trailing blank line, does not end in a comma. -/
theorem clean_raw (header : Str) (ws : List Str) (x : Str) (tl : List Str)
    (hx : endsClean x = true) (hlen : tl.length ≤ 1) (hbl : ∀ t ∈ tl, TrimSpace t = []) :
    HasSuffix (TrimSpace (header ++ Join (ws ++ [x] ++ tl) nl)) comma = false := by
  obtain ⟨x1, c, rfl, hc1, hc2⟩ := endsClean_cases hx
  have e : header ++ Join (ws ++ [x1 ++ [c]]) nl
      = (header ++ Join (ws ++ [x1]) nl) ++ [c] := by
    rw [Join_concat_append]; simp
  obtain ⟨q, hq⟩ := TrimSpace_concat (header ++ Join (ws ++ [x1]) nl) c hc1
  have hfin : HasSuffix (q ++ [c]) comma = false := by
    rw [Bool.eq_false_iff]
    intro h
    exact hc2 ((HasSuffix_concat_comma q c).mp h)
  match tl, hlen, hbl with
  | [], _, _ => rw [List.append_nil, e, hq]; exact hfin
  | [t], _, hbl =>
    have hsp : ∀ y ∈ nl ++ t, isSpace y = true := by
      intro y hy
      rcases List.mem_append.mp hy with hy | hy
      · simp only [nl, List.mem_singleton] at hy
        rw [hy]; decide
      · exact blank_all_space (hbl t (by simp)) y hy
    have e3 : header ++ Join (ws ++ [x1 ++ [c]] ++ [t]) nl
        = (header ++ Join (ws ++ [x1]) nl) ++ [c] ++ (nl ++ t) := by
      rw [Join_concat_line _ _ _ (by simp), Join_concat_append]; simp
    rw [e3, TrimSpace_append_spaces _ c _ hc1 hsp, hq]
    exact hfin
  | _ :: _ :: _, h, _ => simp at h

theorem mem_dropLast_or_last {rows : List Str} {r : Str} (h : r ∈ rows) :
    r ∈ rows.dropLast ∨ rows.getLast? = some r := by
  cases hl : rows.getLast? with
  | none =>
    rw [List.getLast?_eq_none_iff.mp hl] at h
    simp at h
  | some y =>
    obtain ⟨ys, hys⟩ := List.getLast?_eq_some_iff.mp hl
    rw [hys] at h ⊢
    rcases List.mem_append.mp h with h | h
    · left; simpa using h
    · right
      simp only [List.mem_singleton] at h
      rw [h]

/-- The iterations after the first one, for the trailing commas: `cr` holds
the rows emitted so far and ends with the rows `win` of the last batch, which
has not been trimmed yet. -/
theorem windowLoop_clean (H header : Str) (rows tl : List Str) (W : Nat) (hW : 1 ≤ W)
    (hcomma : ∀ r ∈ rows.dropLast, commaRow r = true)
    (hlastrow : ∀ r, rows.getLast? = some r → endsClean r = true)
    (hlen : tl.length ≤ 1) (hblank : ∀ t ∈ tl, TrimSpace t = [])
    (hb : (H :: (rows ++ tl)).length + W < 9223372036854775808) :
    ∀ (fuel : Nat) (cr a done pre win : List Str), rows = cr ++ a → (a ++ tl).length ≤ fuel →
      win ≠ [] → cr = pre ++ win →
      (∀ b ∈ done, HasSuffix (TrimSpace b) comma = false) →
      ∃ out, windowLoop (W : Int) (H :: (rows ++ tl)) header fuel
          ((cr.length + 1 : Nat) : Int) ((cr.length + W : Nat) : Int)
          (done ++ [header ++ Join win nl]) = .ok out ∧
        ∀ b ∈ out, HasSuffix (TrimSpace b) comma = false := by
  have htext : ∀ r ∈ rows, TrimSpace r ≠ [] := by
    intro r hr
    rcases mem_dropLast_or_last hr with h | h
    · exact text_of_commaRow (hcomma r h)
    · exact text_of_endsClean (hlastrow r h)
  have hmem : ∀ (done : List Str) (b : Str),
      (∀ y ∈ done, HasSuffix (TrimSpace y) comma = false) →
      HasSuffix (TrimSpace b) comma = false →
      ∀ y ∈ done ++ [b], HasSuffix (TrimSpace y) comma = false := by
    intro done b hd hbb y hy
    rcases List.mem_append.mp hy with hy | hy
    · exact hd y hy
    · simp only [List.mem_singleton] at hy
      exact hy ▸ hbb
  -- the case where every line has been emitted
  have hend : ∀ (fuel : Nat) (cr done pre ws : List Str) (x : Str), rows = cr → tl = [] →
      cr = pre ++ (ws ++ [x]) → (∀ b ∈ done, HasSuffix (TrimSpace b) comma = false) →
      ∃ out, windowLoop (W : Int) (H :: (rows ++ tl)) header fuel
          ((cr.length + 1 : Nat) : Int) ((cr.length + W : Nat) : Int)
          (done ++ [header ++ Join (ws ++ [x]) nl]) = .ok out ∧
        ∀ b ∈ out, HasSuffix (TrimSpace b) comma = false := by
    intro fuel cr done pre ws x hrows htl hcr hdone
    refine ⟨_, windowLoop_done_nat _ _ _ _ _ _ _ (by simp [hrows, htl]), ?_⟩
    have hlx : rows.getLast? = some x := by
      rw [hrows, hcr, ← List.append_assoc, List.getLast?_concat]
    have := clean_raw header ws x [] (hlastrow x hlx) (by simp) (by simp)
    rw [List.append_nil] at this
    exact hmem done _ hdone this
  intro fuel
  induction fuel with
  | zero =>
    intro cr a done pre win hrows hfuel hwin hcr hdone
    have h0 : a.length + tl.length = 0 := by
      rw [← List.length_append]; exact Nat.le_zero.mp hfuel
    have ha : a = [] := List.length_eq_zero.mp (by omega)
    have htl : tl = [] := List.length_eq_zero.mp (by omega)
    obtain ⟨x, hx⟩ : ∃ x, win.getLast? = some x := by
      cases hl : win.getLast? with
      | none => exact absurd (List.getLast?_eq_none_iff.mp hl) hwin
      | some x => exact ⟨x, rfl⟩
    obtain ⟨ws, hws⟩ := List.getLast?_eq_some_iff.mp hx
    rw [hws] at hcr ⊢
    exact hend 0 cr done pre ws x (by simp [hrows, ha]) htl hcr hdone
  | succ fuel ih =>
    intro cr a done pre win hrows hfuel hwin hcr hdone
    have htlc : tl = [] ∨ ∃ t, tl = [t] := by
      match tl, hlen with
      | [], _ => exact Or.inl rfl
      | [t], _ => exact Or.inr ⟨t, rfl⟩
      | _ :: _ :: _, h => simp at h
    obtain ⟨x, hx⟩ : ∃ x, win.getLast? = some x := by
      cases hl : win.getLast? with
      | none => exact absurd (List.getLast?_eq_none_iff.mp hl) hwin
      | some x => exact ⟨x, rfl⟩
    obtain ⟨ws, hws⟩ := List.getLast?_eq_some_iff.mp hx
    rw [hws] at hcr
    have htrim := trimPrevious_concat done (header ++ Join win nl)
    cases a with
    | nil =>
      have hrows1 : rows = cr := by simpa using hrows
      rcases htlc with htl | ⟨t, htl⟩
      · rw [hws]
        exact hend (fuel + 1) cr done pre ws x hrows1 htl hcr hdone
      · -- the trailing blank line is alone in its window: the loop stops
        have hlines : rows ++ tl = cr ++ t :: [] := by rw [hrows1, htl]
        have hb1 := hb
        rw [hlines] at hb1
        have htb : TrimSpace t = [] := hblank t (by simp [htl])
        rw [hlines, windowLoop_step W H header cr t [] W fuel _ hW hb1]
        simp only [or_true, htb, and_self, if_true, htrim]
        refine ⟨_, rfl, ?_⟩
        have hlx : rows.getLast? = some x := by
          rw [hrows1, hcr, ← List.append_assoc, List.getLast?_concat]
        rw [hws]
        exact hmem done _ hdone (clean_trimmed_plain header ws x (hlastrow x hlx))
    | cons a0 a1 =>
      have ha0 : a0 ∈ rows := by rw [hrows]; simp
      have hlines : rows ++ tl = cr ++ a0 :: (a1 ++ tl) := by rw [hrows]; simp
      have hb1 := hb
      rw [hlines] at hb1
      have hnb : ¬ TrimSpace a0 = [] := htext a0 ha0
      -- the previous batch ends with a row that is not the last one
      have hxc : commaRow x = true := by
        apply hcomma
        rw [hrows, hcr,
          List.dropLast_append_of_ne_nil (pre ++ (ws ++ [x])) (List.cons_ne_nil a0 a1)]
        simp
      have hdone1 : ∀ b ∈ done ++ [TrimSuffix (TrimSpace (header ++ Join win nl)) comma],
          HasSuffix (TrimSpace b) comma = false := by
        rw [hws]
        exact hmem done _ hdone (clean_trimmed_comma header ws x hxc)
      rw [hlines, windowLoop_step W H header cr a0 (a1 ++ tl) W fuel _ hW hb1]
      simp only [hnb, and_false, if_false, htrim]
      rw [← hlines]
      by_cases hlong : W ≤ (a0 :: a1).length
      · -- a full window of rows
        have htake : (a0 :: (a1 ++ tl)).take W = (a0 :: a1).take W := by
          rw [← List.cons_append, List.take_append_of_le_length hlong]
        rw [htake]
        apply ih (cr ++ (a0 :: a1).take W) ((a0 :: a1).drop W) _ cr
        · rw [List.append_assoc, List.take_append_drop]; exact hrows
        · simp only [List.length_append, List.length_drop, List.length_cons] at hfuel ⊢
          omega
        · intro h
          have := congrArg List.length h
          simp only [List.length_take, List.length_cons, List.length_nil] at this
          simp only [List.length_cons] at hlong
          omega
        · rfl
        · exact hdone1
      · -- the last window: the rows that are left and the trailing line
        have hshort : (a0 :: a1).length < W := by omega
        have htake : (a0 :: (a1 ++ tl)).take W = (a0 :: a1) ++ tl := by
          rw [← List.cons_append]
          apply List.take_of_length_le
          rw [List.length_append]
          omega
        rw [htake]
        refine ⟨_, windowLoop_done_nat _ _ _ _ _ _ _ (by simp [hrows]), ?_⟩
        obtain ⟨y, hy⟩ : ∃ y, (a0 :: a1).getLast? = some y := by
          cases hl : (a0 :: a1).getLast? with
          | none => simp at hl
          | some y => exact ⟨y, rfl⟩
        obtain ⟨ys, hys⟩ := List.getLast?_eq_some_iff.mp hy
        have hly : rows.getLast? = some y := by
          rw [hrows, hys, ← List.append_assoc, List.getLast?_concat]
        rw [hys]
        exact hmem _ _ hdone1 (clean_raw header ys y tl (hlastrow y hly) hlen hblank)

/-! ## Lemmas on the panic of `splitBatches` -/

/-- When no segment but the last is blank, the loop returns the trimmed
segments, without the last one when that is blank. -/
theorem splitBatchesLoop_returns :
    ∀ (todo done : List Str), (∀ x ∈ todo.dropLast, TrimSpace x ≠ []) →
      splitBatchesLoop todo.length done.length (done ++ todo)
        = .ok (done ++ (todo.dropLast.map TrimSpace ++
            (todo.getLast?.toList.map TrimSpace).filter fun s => decide (s ≠ [])))
  | [], done, _ => by simp [splitBatchesLoop]
  | [b], done, _ => by
    rw [List.length_cons, splitBatchesLoop_step]
    by_cases hb : TrimSpace b = []
    · simp [hb, splitBatchesLoop]
    · simp [hb, splitBatchesLoop]
  | b :: c :: t, done, h => by
    have hb : TrimSpace b ≠ [] := h b (by simp)
    have ih := splitBatchesLoop_returns (c :: t) (done ++ [TrimSpace b])
      (fun x hx => h x (by simp only [List.dropLast_cons₂]; exact List.mem_cons_of_mem _ hx))
    simp only [List.length_append, List.length_singleton, List.append_assoc,
      List.singleton_append] at ih
    rw [List.length_cons, splitBatchesLoop_step, if_neg hb, ih]
    simp

/-- When a segment other than the last one is blank, the loop ends in an index
out of range. -/
theorem splitBatchesLoop_panics :
    ∀ (todo done : List Str), (∃ x ∈ todo.dropLast, TrimSpace x = []) →
      splitBatchesLoop todo.length done.length (done ++ todo) = .panic
  | [], _, h => by simp at h
  | [b], _, h => by simp at h
  | b :: c :: t, done, h => by
    rw [List.length_cons, splitBatchesLoop_step]
    by_cases hb : TrimSpace b = []
    · rw [if_pos hb, List.length_cons]
      exact splitBatchesLoop_short _ _ _ (by simp)
    · rw [if_neg hb]
      obtain ⟨x, hx, hxb⟩ := h
      simp only [List.dropLast_cons₂, List.mem_cons] at hx
      rcases hx with rfl | hx
      · exact absurd hxb hb
      · have ih := splitBatchesLoop_panics (c :: t) (done ++ [TrimSpace b]) ⟨x, hx, hxb⟩
        simp only [List.length_append, List.length_singleton, List.append_assoc,
          List.singleton_append] at ih
        exact ih

/-! ## Lemmas on the safety of the sliding window -/

theorem splitGo_ne_nil (sep : Str) : ∀ (s : Str) (k : Nat), splitGo sep k s ≠ []
  | [], k => by cases k <;> simp [splitGo]
  | _ :: t, k + 1 => by simpa [splitGo] using splitGo_ne_nil sep t k
  | c :: t, 0 => by
    rw [splitGo]
    split
    · simp
    · cases splitGo sep 0 t <;> simp [consHead]

theorem Split_nl_ne_nil (s : Str) : Split s nl ≠ [] := by
  have : nl ≠ [] := by decide
  simp only [Split, this, if_false]
  exact splitGo_ne_nil nl s 0

theorem length_le_length_flatten :
    ∀ ws : List (List Str), (∀ w ∈ ws, w ≠ []) → ws.length ≤ ws.flatten.length
  | [], _ => by simp
  | w :: ws, h => by
    have h1 : 0 < w.length := List.length_pos.mpr (h w (by simp))
    have h2 := length_le_length_flatten ws (fun v hv => h v (List.mem_cons_of_mem _ hv))
    simp only [List.length_cons, List.flatten_cons, List.length_append]
    omega

theorem emittedFrom_length_eq {header : Str} {batches : List Str}
    {windows : List (List Str)} (h : EmittedFrom header batches windows) :
    batches.length = windows.length := by
  rcases h with h | ⟨ws, w, h1, h2⟩
  · rw [h, List.length_map]
  · rw [h1, h2]; simp

/-- The iterations after the first one, for arbitrary lines: the loop returns,
and its batches come from non-empty consecutive windows of the lines. -/
theorem windowLoop_safe_rest (W : Nat) (hW : 1 ≤ W) (H header : Str) :
    ∀ (fuel : Nat) (cr rem : List Str) (ws : List (List Str)) (w : List Str),
      (H :: (cr ++ rem)).length + W < 9223372036854775808 →
      rem.length ≤ fuel → (∀ v ∈ ws ++ [w], v ≠ []) → (ws ++ [w]).flatten = cr →
      ∃ (out : List Str) (windows : List (List Str)),
        windowLoop (W : Int) (H :: (cr ++ rem)) header fuel
            ((cr.length + 1 : Nat) : Int) ((cr.length + W : Nat) : Int)
            (ws.map (trimmedBatch header) ++ [rawBatch header w]) = .ok out ∧
          EmittedFrom header out windows ∧ (∀ v ∈ windows, v ≠ []) ∧
          windows.flatten <+: cr ++ rem := by
  have hend : ∀ (fuel : Nat) (cr : List Str) (ws : List (List Str)) (w : List Str),
      (∀ v ∈ ws ++ [w], v ≠ []) → (ws ++ [w]).flatten = cr →
      ∃ (out : List Str) (windows : List (List Str)),
        windowLoop (W : Int) (H :: (cr ++ [])) header fuel
            ((cr.length + 1 : Nat) : Int) ((cr.length + W : Nat) : Int)
            (ws.map (trimmedBatch header) ++ [rawBatch header w]) = .ok out ∧
          EmittedFrom header out windows ∧ (∀ v ∈ windows, v ≠ []) ∧
          windows.flatten <+: cr ++ [] := by
    intro fuel cr ws w hne hfl
    refine ⟨_, ws ++ [w], windowLoop_done_nat _ _ _ _ _ _ _ (by simp),
      Or.inr ⟨ws, w, rfl, rfl⟩, hne, ?_⟩
    rw [hfl, List.append_nil]
  intro fuel
  induction fuel with
  | zero =>
    intro cr rem ws w _ hfuel hne hfl
    have : rem = [] := List.length_eq_zero.mp (Nat.le_zero.mp hfuel)
    subst this
    exact hend 0 cr ws w hne hfl
  | succ fuel ih =>
    intro cr rem ws w hb hfuel hne hfl
    cases rem with
    | nil => exact hend (fuel + 1) cr ws w hne hfl
    | cons a0 rem =>
      rw [windowLoop_step W H header cr a0 rem W fuel _ hW hb]
      have htrim : trimPrevious (ws.map (trimmedBatch header) ++ [rawBatch header w])
          = (ws ++ [w]).map (trimmedBatch header) := by
        rw [trimPrevious_concat]; simp [trimmedBatch]
      rw [htrim]
      by_cases hc : (W = 1 ∨ rem = []) ∧ TrimSpace a0 = []
      · -- the loop stops at a blank line that is alone in its window
        rw [if_pos hc]
        refine ⟨_, ws ++ [w], rfl, Or.inl rfl, hne, ?_⟩
        rw [hfl]
        exact List.prefix_append _ _
      · rw [if_neg hc]
        have hwin : (a0 :: rem).take W ≠ [] := by
          intro h
          have := congrArg List.length h
          simp only [List.length_take, List.length_cons, List.length_nil] at this
          omega
        have hlines : cr ++ a0 :: rem = (cr ++ (a0 :: rem).take W) ++ (a0 :: rem).drop W := by
          rw [List.append_assoc, List.take_append_drop]
        have := ih (cr ++ (a0 :: rem).take W) ((a0 :: rem).drop W) (ws ++ [w])
          ((a0 :: rem).take W)
          (by rw [← hlines]; exact hb)
          (by
            simp only [List.length_drop, List.length_cons] at hfuel ⊢
            omega)
          (by
            intro v hv
            rcases List.mem_append.mp hv with hv | hv
            · exact hne v hv
            · simp only [List.mem_singleton] at hv
              exact hv ▸ hwin)
          (by rw [List.flatten_append, hfl]; simp)
        rw [← hlines] at this
        exact this

/-- With width 0 and at least two lines after the header the left index stays
on line 2 and the loop uses up any amount of fuel. -/
theorem windowLoop_zero_width_stuck (header : Str) :
    ∀ (fuel : Nat) (batches : List Str),
      windowLoop 0 ["H".toList, "a".toList, "b".toList] header fuel 2 1 batches = .outOfFuel
  | 0, _ => by simp [windowLoop]
  | fuel + 1, batches => by
    rw [windowLoop_unfold 0 _ header fuel 2 1 1 batches "b".toList [] (by decide) (by decide)
      (by decide) (by decide)]
    have h1 : ¬ ((2 : Int) = 1 ∧ TrimSpace "b".toList = []) := by decide
    have e1 : wrapInt (1 + 1) = 2 := by decide
    have e2 : wrapInt (1 + 0) = 1 := by decide
    rw [if_neg h1, e1, e2]
    exact windowLoop_zero_width_stuck header fuel _

/-- With the largest `int` as width, `r := l + ImportBatSize` wraps around to a
negative index and the slice `lines[l:r+1]` is out of range as soon as the
loop body runs; one less and `r` is put back on the last line. -/
theorem dataDump_max_width_wraps :
    dataDumpBatches 3 9223372036854775807 "H\na\nb".toList = .panic ∧
    dataDumpBatches 1 9223372036854775807 "H\n".toList = .panic ∧
    dataDumpBatches 1 9223372036854775806 "H\n".toList = .ok [] := by
  refine ⟨by decide, by decide, by decide⟩

/-! ## The directives that `ReplaceUseDatabaseName` rewrites -/

/-- The directives that are rewritten as a whole.  A script that starts with
optional white space, the keyword `USE` in any case, white space and a name
made of one or more characters other than `]`, white space and `;` becomes
`USE [new]` followed by the unchanged text after the closing bracket when the
name is in brackets, and `USE new` followed by the unchanged text after the
name when it has no brackets and is followed by white space, `;` or the end of
the text; a script that does not start with `USE`, white space and a name
character (after optional white space) is returned unchanged. -/
theorem replaceUse_rewrites_leading_directive (newDbName : Str) :
    (∀ (ws sp name rest : Str) (u s e : Char),
      (∀ c ∈ ws, reSpace c = true) → reU u = true → reS s = true → reE e = true →
      sp ≠ [] → (∀ c ∈ sp, reSpace c = true) →
      name ≠ [] → (∀ c ∈ name, reNameChar c = true) →
      ReplaceUseDatabaseName (ws ++ [u, s, e] ++ sp ++ "[".toList ++ name ++ "]".toList ++ rest)
          newDbName
        = .ok ("USE [".toList ++ newDbName ++ "]".toList ++ rest)) ∧
    (∀ (ws sp name rest : Str) (u s e : Char),
      (∀ c ∈ ws, reSpace c = true) → reU u = true → reS s = true → reE e = true →
      sp ≠ [] → (∀ c ∈ sp, reSpace c = true) →
      name ≠ [] → (∀ c ∈ name, reNameChar c = true) → name.head? ≠ some '[' →
      (∀ c, rest.head? = some c → reSpace c = true ∨ c = ';') →
      ReplaceUseDatabaseName (ws ++ [u, s, e] ++ sp ++ name ++ rest) newDbName
        = .ok ("USE ".toList ++ newDbName ++ rest)) ∧
    (∀ sql : Str,
      (¬ ∃ (ws sp tail : Str) (u s e c : Char),
        (∀ x ∈ ws, reSpace x = true) ∧ reU u = true ∧ reS s = true ∧ reE e = true ∧
        sp ≠ [] ∧ (∀ x ∈ sp, reSpace x = true) ∧ reNameChar c = true ∧
        sql = ws ++ [u, s, e] ++ sp ++ c :: tail) →
      ReplaceUseDatabaseName sql newDbName = .ok sql) := by
  refine ⟨?_, ?_, ?_⟩
  · intro ws sp name rest u s e hws hu hs he hsp hsps hne hname
    have key : ∀ rest : Str,
        reFind (ws ++ [u, s, e] ++ sp ++ "[".toList ++ name ++ "]".toList ++ rest)
          = some { text := ws ++ [u, s, e] ++ sp ++ '[' :: (name ++ [']']),
                   openingBracket := ['['], rest := rest } := by
      intro rest
      have e1 : ws ++ [u, s, e] ++ sp ++ "[".toList ++ name ++ "]".toList ++ rest
          = ws ++ [u, s, e] ++ sp ++ ('[' :: (name ++ ']' :: rest)) := by
        simp
      rw [e1, reFind_start ws sp ('[' :: (name ++ ']' :: rest)) u s e '[' hws hu hs he hsp
        hsps rfl (by decide),
        reName_bracketed _ name rest hne hname]
    have k2 := key []
    have e2 : ws ++ [u, s, e] ++ sp ++ "[".toList ++ name ++ "]".toList ++ []
        = ws ++ [u, s, e] ++ sp ++ '[' :: (name ++ [']']) := by simp
    rw [e2] at k2
    simp only [ReplaceUseDatabaseName, key rest, k2]
    simp
  · intro ws sp name rest u s e hws hu hs he hsp hsps hne hname hhead hrest
    have hrest1 : ∀ c, rest.head? = some c → reNameChar c = false ∧ c ≠ ']' := by
      intro c hc
      rcases hrest c hc with h | rfl
      · refine ⟨by simp [reNameChar, h], ?_⟩
        rintro rfl
        exact absurd h (by decide)
      · exact ⟨by decide, by decide⟩
    obtain ⟨n0, hn0⟩ : ∃ n0, (name ++ rest).head? = some n0 ∧ reSpace n0 = false := by
      cases name with
      | nil => exact absurd rfl hne
      | cons n0 name =>
        exact ⟨n0, rfl, not_reSpace_of_reNameChar (hname n0 (by simp))⟩
    have key : reFind (ws ++ [u, s, e] ++ sp ++ name ++ rest)
        = some { text := ws ++ [u, s, e] ++ sp ++ name, openingBracket := [], rest := rest } := by
      rw [List.append_assoc (ws ++ [u, s, e] ++ sp) name rest,
        reFind_start ws sp _ u s e n0 hws hu hs he hsp hsps hn0.1 hn0.2,
        reName_plain _ name rest hne hname hhead hrest1]
    have k2 : reFind (ws ++ [u, s, e] ++ sp ++ name)
        = some { text := ws ++ [u, s, e] ++ sp ++ name, openingBracket := [], rest := [] } := by
      have hn1 : name.head? = some n0 := by
        cases name with
        | nil => exact absurd rfl hne
        | cons a name => simpa using hn0.1
      have := reName_plain (ws ++ [u, s, e] ++ sp) name [] hne hname hhead (by simp)
      rw [List.append_nil] at this
      rw [reFind_start ws sp _ u s e n0 hws hu hs he hsp hsps hn1 hn0.2, this]
    simp only [ReplaceUseDatabaseName, key, k2]
    simp
  · intro sql hno
    cases h : reFind sql with
    | none => simp [ReplaceUseDatabaseName, h]
    | some m => exact absurd (reFind_some_shape h) hno

/-- An instance: a bracketed name after a leading newline and a lower-case
keyword; the later `USE` statement is not touched. -/
theorem replaceUse_rewrites_leading_directive_witness :
    ReplaceUseDatabaseName
        ("\n".toList ++ ['u', 's', 'e'] ++ "  ".toList ++ "[".toList ++ "KN_online".toList
          ++ "]".toList ++ "\nGO\nUSE [Other]".toList) "Game".toList
      = .ok ("USE [".toList ++ "Game".toList ++ "]".toList ++ "\nGO\nUSE [Other]".toList) :=
  (replaceUse_rewrites_leading_directive "Game".toList).1 "\n".toList "  ".toList
    "KN_online".toList "\nGO\nUSE [Other]".toList 'u' 's' 'e'
    (by decide) (by decide) (by decide) (by decide) (by decide) (by decide) (by decide)
    (by decide)

/-! ## The claims -/

/-- C1 (code defect): with header `H`, rows `a`, `b`, `c` and width 2 the loop
emits a single batch holding all three rows, where the documented batch size
asks for two batches (of 2 rows and of 1 row): the first window spans
`ImportBatSize + 1` lines.  Only the first window does: with seven rows the
batches hold 3, 2 and 2 rows. -/
theorem dataDump_first_window_one_row_too_many :
    ∀ fuel : Nat,
      dataDumpBatches (fuel + 1) 2 "H\na\nb\nc".toList = .ok ["H\na\nb\nc".toList] ∧
      ["H\na\nb\nc".toList].length ≠ (3 + 2 - 1) / 2 ∧
      dataDumpBatches (fuel + 3) 2 "H\na\nb\nc\nd\ne\nf\ng".toList
        = .ok ["H\na\nb\nc".toList, "H\nd\ne".toList, "H\nf\ng".toList] := by
  intro fuel
  refine ⟨?_, by decide, ?_⟩
  · cases fuel <;> rfl
  · cases fuel <;> rfl

/-- C2 (counterexample): with rows `a,`, `b,`, `c,`, a trailing blank line and
width 2 the blank line falls alone into the second window, so the comma of the
only batch, which is the final one, is stripped: putting the comma back on
non-final batches only does not give the row `c,` back.  And with a blank
header line `TrimSpace` removes the header of a non-final batch, so that
dropping the first line of that batch loses the row `a,`. -/
theorem dataDump_final_batch_comma_lost :
    (dataDumpBatches 5 2 "H\na,\nb,\nc,\n".toList = .ok ["H\na,\nb,\nc".toList] ∧
      restoreRows ["H\na,\nb,\nc".toList] = ["a,".toList, "b,".toList, "c".toList] ∧
      restoreRows ["H\na,\nb,\nc".toList] ≠ ["a,".toList, "b,".toList, "c,".toList]) ∧
    (dataDumpBatches 5 2 " \na,\nb,\nc,\nd".toList = .ok ["a,\nb,\nc".toList, " \nd".toList] ∧
      restoreRows ["a,\nb,\nc".toList, " \nd".toList]
        = ["b,".toList, "c,".toList, "d".toList] ∧
      restoreRows ["a,\nb,\nc".toList, " \nd".toList]
        ≠ ["a,".toList, "b,".toList, "c,".toList, "d".toList]) := by
  refine ⟨⟨by rfl, by decide, by decide⟩, ⟨by rfl, by decide, by decide⟩⟩

/-- C2 (amended): for a dump made of a header line that is not blank, rows that
are not blank and have no trailing white space, each but the last ending in a
comma, the last row ending in a comma or not but without one when a trailing
blank line follows, and an optional trailing blank line, and for every width
of at least 1 that, with the line count, stays in the range of `int`, the loop
returns batches from which the rows are read back exactly and in order: drop
the header line of each batch and put the comma back on the last row of each
non-final batch; the rows of the final batch are its lines that are not blank. -/
theorem dataDump_rows_restored (fuel W : Nat) (H : Str) (rows : List Str)
    (trailing : Option Str) (hW : 1 ≤ W)
    (hint : rows.length + W + 2 < 9223372036854775808)
    (hfuel : rows.length + 1 ≤ fuel)
    (hH : '\n' ∉ H) (hHt : TrimSpace H ≠ [])
    (hline : ∀ r ∈ rows, '\n' ∉ r) (htext : ∀ r ∈ rows, TrimSpace r ≠ [])
    (hend : ∀ r ∈ rows, TrimRightSpace r = r)
    (hcomma : ∀ r ∈ rows.dropLast, HasSuffix r comma = true)
    (htr : ∀ t, trailing = some t → '\n' ∉ t ∧ TrimSpace t = [])
    (hlast : trailing ≠ none → ∀ x, rows.getLast? = some x → ¬ HasSuffix x comma = true) :
    ∃ batches,
      dataDumpBatches fuel (W : Int) (Join (H :: (rows ++ trailing.toList)) nl) = .ok batches ∧
      restoreRows batches = rows := by
  have hs : DumpShape H rows trailing.toList :=
    { header_line := hH, header_text := hHt, row_line := hline, row_text := htext,
      row_end := hend, row_comma := hcomma,
      tl_length := by cases trailing <;> simp,
      tl_line := by
        intro t ht
        cases trailing with
        | none => simp at ht
        | some t0 =>
          simp only [Option.toList_some, List.mem_singleton] at ht
          exact ht ▸ (htr t0 rfl).1
      tl_blank := by
        intro t ht
        cases trailing with
        | none => simp at ht
        | some t0 =>
          simp only [Option.toList_some, List.mem_singleton] at ht
          exact ht ▸ (htr t0 rfl).2 }
  have hsplit : Split (Join (H :: (rows ++ trailing.toList)) nl) nl
      = H :: (rows ++ trailing.toList) := by
    apply Split_Join (by decide) unbordered_nl _ (by simp)
    intro x hx
    rcases List.mem_cons.mp hx with rfl | hx
    · exact sepFree_nl hH
    · rcases List.mem_append.mp hx with hx | hx
      · exact sepFree_nl (hline x hx)
      · exact sepFree_nl (hs.tl_line x hx)
  have hb : (H :: (rows ++ trailing.toList)).length + W < 9223372036854775808 := by
    have := hs.tl_length
    simp only [List.length_cons, List.length_append]
    omega
  have hlast1 : trailing.toList ≠ [] →
      ∀ x, rows.getLast? = some x → ¬ HasSuffix x comma = true := by
    intro h
    apply hlast
    rintro rfl
    simp at h
  simp only [dataDumpBatches, hsplit, List.getElem?_cons_zero]
  have htlc : trailing.toList = [] ∨ ∃ t, trailing.toList = [t] := by
    cases trailing with
    | none => exact Or.inl rfl
    | some t => exact Or.inr ⟨t, rfl⟩
  obtain ⟨fuel, rfl⟩ : ∃ f, fuel = f + 1 := ⟨fuel - 1, by omega⟩
  cases hrows : rows with
  | nil =>
    rcases htlc with htl | ⟨t, htl⟩
    · refine ⟨[], ?_, rfl⟩
      rw [htl]
      exact windowLoop_done _ _ _ _ _ _ _ (by simp)
    · refine ⟨[], ?_, rfl⟩
      have htb : TrimSpace t = [] := hs.tl_blank t (by simp [htl])
      have hb1 := hb
      rw [hrows, htl, List.nil_append] at hb1
      rw [htl, List.nil_append, windowLoop_first W H (H ++ nl) t [] fuel hb1]
      simp [htb]
  | cons a0 a1 =>
    rw [← hrows]
    have ha0 : a0 ∈ rows := by simp [hrows]
    have hnb : ¬ TrimSpace a0 = [] := htext a0 ha0
    have hlines : rows ++ trailing.toList = a0 :: (a1 ++ trailing.toList) := by simp [hrows]
    have hb1 := hb
    rw [hlines] at hb1
    rw [hlines, windowLoop_first W H (H ++ nl) a0 (a1 ++ trailing.toList) fuel hb1]
    simp only [hnb, and_false, if_false]
    rw [← hlines]
    by_cases hlong : W + 1 ≤ rows.length
    · have htake : (rows ++ trailing.toList).take (W + 1) = rows.take (W + 1) :=
        List.take_append_of_le_length hlong
      rw [htake]
      have := windowLoop_rest hs W hW hlast1 hb fuel
        (rows.take (W + 1)) (rows.drop (W + 1)) [] (rows.take (W + 1))
        (List.take_append_drop _ _).symm
        (by
          have := hs.tl_length
          simp only [List.length_append, List.length_drop]
          omega)
        (by
          intro h
          have := congrArg List.length h
          simp only [List.length_take, List.length_nil] at this
          omega)
        (by simp [restoreNonFinal])
      rw [List.nil_append] at this
      exact this
    · have hshort : rows.length ≤ W := by omega
      have htake : (rows ++ trailing.toList).take (W + 1) = rows ++ trailing.toList := by
        apply List.take_of_length_le
        have := hs.tl_length
        rw [List.length_append]
        omega
      rw [htake]
      refine ⟨_, windowLoop_done_nat _ _ _ _ _ _ _ (by simp), ?_⟩
      have := restoreRows_raw hs [] rows trailing.toList (fun y hy => hy) (fun y hy => hy)
        (by simp [hrows])
      simpa [restoreNonFinal] using this

/-- Witness of C2: six rows, the last one without comma, a trailing blank line
and width 2. -/
theorem dataDump_rows_restored_witness :
    ∃ batches,
      dataDumpBatches 8 ((2 : Nat) : Int) (Join ("H".toList ::
          (["a,".toList, "b,".toList, "c,".toList, "d,".toList, "e,".toList, "f".toList]
            ++ (some "".toList).toList)) nl) = .ok batches ∧
      restoreRows batches
        = ["a,".toList, "b,".toList, "c,".toList, "d,".toList, "e,".toList, "f".toList] :=
  dataDump_rows_restored 8 2 "H".toList
    ["a,".toList, "b,".toList, "c,".toList, "d,".toList, "e,".toList, "f".toList]
    (some "".toList) (by decide) (by decide) (by decide) (by decide) (by decide) (by decide)
    (by decide) (by decide) (by decide) (by simp; decide) (by intro _ x hx; simp at hx; subst hx; decide)

/-- C3 (code defect): `splitBatches` panics on a script that starts with the
separator and on a script with two separators that have only white space
between them, because the removal of an empty segment shortens the slice while
the loop still runs to the original length. -/
theorem splitBatches_panics_on_empty_inner_segment :
    splitBatches "GO".toList "GO\nSELECT 1".toList = .panic ∧
    splitBatches "GO".toList "SELECT 1\nGO\nGO\nSELECT 2".toList = .panic := by
  constructor <;> rfl

/-- C4 (counterexample): with header `H`, rows `a,` and `b,`, a trailing blank
line and width 2, the only batch is emitted unchanged: once trailing white
space is ignored it still ends with the comma of its last row.  The same
happens with the single row `a,`, whatever the width of the first window. -/
theorem dataDump_last_batch_keeps_trailing_comma :
    (dataDumpBatches 3 2 "H\na,\nb,\n".toList = .ok ["H\na,\nb,\n".toList] ∧
      HasSuffix (TrimSpace "H\na,\nb,\n".toList) comma = true) ∧
    (dataDumpBatches 3 2 "H\na,\n".toList = .ok ["H\na,\n".toList] ∧
      HasSuffix (TrimSpace "H\na,\n".toList) comma = true) := by
  refine ⟨⟨by rfl, by decide⟩, ⟨by rfl, by decide⟩⟩

/-- C4 (amended): for a dump made of a header line, rows of which each but the
last ends in one comma that directly follows its text, a last row that ends
in a character that is neither white space nor a comma, and an optional
trailing blank line, and for every width of at least 1 that, with the line
count, stays in the range of `int`, no emitted batch ends with a comma once
trailing white space is ignored: the loop strips the commas that the split
leaves at the end of a batch, not a comma after the very last row. -/
theorem dataDump_batches_end_without_comma (fuel W : Nat) (H : Str) (rows : List Str)
    (trailing : Option Str) (hW : 1 ≤ W)
    (hint : rows.length + W + 2 < 9223372036854775808)
    (hfuel : rows.length + 1 ≤ fuel)
    (hH : '\n' ∉ H) (hline : ∀ r ∈ rows, '\n' ∉ r)
    (hcomma : ∀ r ∈ rows.dropLast, commaRow r = true)
    (hlastrow : ∀ r, rows.getLast? = some r → endsClean r = true)
    (htr : ∀ t, trailing = some t → '\n' ∉ t ∧ TrimSpace t = []) :
    ∃ batches,
      dataDumpBatches fuel (W : Int) (Join (H :: (rows ++ trailing.toList)) nl) = .ok batches ∧
      ∀ b ∈ batches, HasSuffix (TrimSpace b) comma = false := by
  have hlen : trailing.toList.length ≤ 1 := by cases trailing <;> simp
  have hblank : ∀ t ∈ trailing.toList, TrimSpace t = [] := by
    intro t ht
    cases trailing with
    | none => simp at ht
    | some t0 =>
      simp only [Option.toList_some, List.mem_singleton] at ht
      exact ht ▸ (htr t0 rfl).2
  have htline : ∀ t ∈ trailing.toList, '\n' ∉ t := by
    intro t ht
    cases trailing with
    | none => simp at ht
    | some t0 =>
      simp only [Option.toList_some, List.mem_singleton] at ht
      exact ht ▸ (htr t0 rfl).1
  have hsplit : Split (Join (H :: (rows ++ trailing.toList)) nl) nl
      = H :: (rows ++ trailing.toList) := by
    apply Split_Join (by decide) unbordered_nl _ (by simp)
    intro x hx
    rcases List.mem_cons.mp hx with rfl | hx
    · exact sepFree_nl hH
    · rcases List.mem_append.mp hx with hx | hx
      · exact sepFree_nl (hline x hx)
      · exact sepFree_nl (htline x hx)
  have hb : (H :: (rows ++ trailing.toList)).length + W < 9223372036854775808 := by
    simp only [List.length_cons, List.length_append]
    omega
  simp only [dataDumpBatches, hsplit, List.getElem?_cons_zero]
  have htlc : trailing.toList = [] ∨ ∃ t, trailing.toList = [t] := by
    cases trailing with
    | none => exact Or.inl rfl
    | some t => exact Or.inr ⟨t, rfl⟩
  obtain ⟨fuel, rfl⟩ : ∃ f, fuel = f + 1 := ⟨fuel - 1, by omega⟩
  cases hrows : rows with
  | nil =>
    rcases htlc with htl | ⟨t, htl⟩
    · refine ⟨[], ?_, by simp⟩
      rw [htl]
      exact windowLoop_done _ _ _ _ _ _ _ (by simp)
    · refine ⟨[], ?_, by simp⟩
      have htb : TrimSpace t = [] := hblank t (by simp [htl])
      have hb1 := hb
      rw [hrows, htl, List.nil_append] at hb1
      rw [htl, List.nil_append, windowLoop_first W H (H ++ nl) t [] fuel hb1]
      simp [htb]
  | cons a0 a1 =>
    rw [← hrows]
    have ha0 : a0 ∈ rows := by simp [hrows]
    have hnb : ¬ TrimSpace a0 = [] := by
      rcases mem_dropLast_or_last ha0 with h | h
      · exact text_of_commaRow (hcomma a0 h)
      · exact text_of_endsClean (hlastrow a0 h)
    have hlines : rows ++ trailing.toList = a0 :: (a1 ++ trailing.toList) := by simp [hrows]
    have hb1 := hb
    rw [hlines] at hb1
    rw [hlines, windowLoop_first W H (H ++ nl) a0 (a1 ++ trailing.toList) fuel hb1]
    simp only [hnb, and_false, if_false]
    rw [← hlines]
    by_cases hlong : W + 1 ≤ rows.length
    · have htake : (rows ++ trailing.toList).take (W + 1) = rows.take (W + 1) :=
        List.take_append_of_le_length hlong
      rw [htake]
      have := windowLoop_clean H (H ++ nl) rows trailing.toList W hW hcomma hlastrow hlen
        hblank hb fuel (rows.take (W + 1)) (rows.drop (W + 1)) [] [] (rows.take (W + 1))
        (List.take_append_drop _ _).symm
        (by
          simp only [List.length_append, List.length_drop]
          omega)
        (by
          intro h
          have := congrArg List.length h
          simp only [List.length_take, List.length_nil] at this
          omega)
        (by simp)
        (by simp)
      rw [List.nil_append] at this
      exact this
    · have htake : (rows ++ trailing.toList).take (W + 1) = rows ++ trailing.toList := by
        apply List.take_of_length_le
        rw [List.length_append]
        omega
      rw [htake]
      refine ⟨_, windowLoop_done_nat _ _ _ _ _ _ _ (by simp), ?_⟩
      obtain ⟨y, hy⟩ : ∃ y, rows.getLast? = some y := by
        cases hl : rows.getLast? with
        | none => rw [hrows] at hl; simp at hl
        | some y => exact ⟨y, rfl⟩
      obtain ⟨ys, hys⟩ := List.getLast?_eq_some_iff.mp hy
      intro b hbm
      simp only [List.mem_singleton] at hbm
      rw [hbm, hys]
      exact clean_raw (H ++ nl) ys y trailing.toList (hlastrow y hy) hlen hblank

/-- Witness of C4: five rows, the last one without comma, a trailing blank line
and width 2. -/
theorem dataDump_batches_end_without_comma_witness :
    ∃ batches,
      dataDumpBatches 6 ((2 : Nat) : Int) (Join ("H".toList ::
          (["a,".toList, "b,".toList, "c,".toList, "d,".toList, "e".toList]
            ++ (some "".toList).toList)) nl) = .ok batches ∧
      ∀ b ∈ batches, HasSuffix (TrimSpace b) comma = false :=
  dataDump_batches_end_without_comma 6 2 "H".toList
    ["a,".toList, "b,".toList, "c,".toList, "d,".toList, "e".toList]
    (some "".toList) (by decide) (by decide) (by decide) (by decide) (by decide) (by decide)
    (by intro x hx; simp at hx; subst hx; decide) (by simp; decide)

/-- C5: `isIgnoreErr` is true exactly for the messages that start with
`mssql: Cannot drop the view` or with `mssql: Cannot drop the procedure`; in
particular it is false for a message about a table and for a message that
holds one of the prefixes after other text. -/
theorem isIgnoreErr_iff_prefix :
    (∀ err : Str, isIgnoreErr err = true ↔
      ("mssql: Cannot drop the view".toList <+: err ∨
        "mssql: Cannot drop the procedure".toList <+: err)) ∧
    isIgnoreErr "mssql: Cannot drop the table 'T', because it does not exist".toList = false ∧
    isIgnoreErr "error: mssql: Cannot drop the view 'V'".toList = false ∧
    isIgnoreErr "mssql: cannot drop the view 'V'".toList = false := by
  refine ⟨?_, by decide, by decide, by decide⟩
  intro err
  simp [isIgnoreErr, HasPrefix, List.isPrefixOf_iff_prefix]

/-- C6: when the connection is obtained and every script splits, `runScripts`
submits the batches of all scripts in script order and batch order; batches
without error or with an ignorable error do not stop it; it stops at the first
batch with a non-ignorable error, returns that error and submits nothing after
it; it returns nil exactly when no submitted batch had such an error. -/
theorem runScripts_stops_at_first_fatal (fuel : Nat) (W : Int) (sep : Str) (driver : Driver)
    (args : ScriptArgs) (scripts : List Script) (conn : Conn) (bss : List (List Str))
    (hne : scripts ≠ [])
    (hconn : (if args.IsUseDefaultSystemDb then driver.GetMasterConnection
              else driver.GetTx) = .ok conn)
    (hsplit : List.Forall₂ (fun s bs => scriptBatches fuel W sep args s = .ok bs) scripts bss) :
    ((∀ b ∈ bss.flatten, isFatal conn b = false) →
      runScripts fuel W sep driver args scripts
        = .ok { submitted := bss.flatten, err := none }) ∧
    (∀ pre b post, bss.flatten = pre ++ b :: post →
      (∀ x ∈ pre, isFatal conn x = false) → isFatal conn b = true →
      (conn b).isSome = true ∧
      runScripts fuel W sep driver args scripts
        = .ok { submitted := pre ++ [b], err := conn b }) ∧
    (∃ out, runScripts fuel W sep driver args scripts = .ok out ∧
      out.submitted <+: bss.flatten ∧
      (out.err = none ↔ ∀ b ∈ out.submitted, isFatal conn b = false)) := by
  have hrun : runScripts fuel W sep driver args scripts
      = runScriptsLoop fuel W sep args conn scripts [] := by
    have : scripts.length ≠ 0 := fun h => hne (List.length_eq_zero.mp h)
    simp only [runScripts, this, if_false, hconn]
  rw [hrun]
  have hA := fun h => runScriptsLoop_clean fuel W sep args conn hsplit [] h
  have hB := fun pre b post h1 h2 h3 =>
    runScriptsLoop_fatal fuel W sep args conn hsplit [] pre b post h1 h2 h3
  simp only [List.nil_append] at hA hB
  refine ⟨hA, fun pre b post h1 h2 h3 => ⟨isSome_of_isFatal h3, hB pre b post h1 h2 h3⟩, ?_⟩
  rcases first_fatal_or_clean conn bss.flatten with hc | ⟨pre, b, post, h1, h2, h3⟩
  · refine ⟨_, hA hc, List.prefix_refl _, ?_⟩
    simp only [true_iff]
    exact hc
  · refine ⟨_, hB pre b post h1 h2 h3, ?_, ?_⟩
    · rw [h1]
      exact ⟨post, by simp⟩
    · have hs := isSome_of_isFatal h3
      constructor
      · intro hn
        simp only at hn
        rw [hn] at hs
        simp at hs
      · intro hall
        have := hall b (by simp)
        rw [h3] at this
        simp at this

/-- Witness of C6: the ignorable error of the first script does not stop the
run, the error of `BAD` does, and `SELECT 1` and `SELECT 2` are not submitted. -/
theorem runScripts_stops_at_first_fatal_witness :
    runScripts 0 16 "GO".toList sampleDriver defaultScriptArgs sampleScripts
      = .ok { submitted := ["DROP VIEW V".toList, "CREATE VIEW V".toList, "BAD".toList],
              err := sampleConn "BAD".toList } :=
  ((runScripts_stops_at_first_fatal 0 16 "GO".toList sampleDriver defaultScriptArgs
    sampleScripts sampleConn
    [["DROP VIEW V".toList, "CREATE VIEW V".toList], ["BAD".toList, "SELECT 1".toList],
      ["SELECT 2".toList]]
    (by simp [sampleScripts]) rfl
    (List.Forall₂.cons (by rfl) (List.Forall₂.cons (by rfl)
      (List.Forall₂.cons (by rfl) List.Forall₂.nil)))).2.1
    ["DROP VIEW V".toList, "CREATE VIEW V".toList] "BAD".toList
    ["SELECT 1".toList, "SELECT 2".toList] (by rfl) (by decide) (by decide)).2

/-- C7: whatever the value of the `-batchSize` argument, the batch size in
effect after `main` applied the override lies in `[2, 999]`; it is the
argument when that lies in `[2, 999]` and 16 otherwise. -/
theorem mainImportBatSize_in_range :
    ∀ a : Int,
      2 ≤ mainImportBatSize a ∧ mainImportBatSize a ≤ 999 ∧
      mainImportBatSize a = (if 2 ≤ a ∧ a ≤ 999 then a else 16) ∧
      mainImportBatSize defaultBatchSizeFlag = 16 := by
  intro a
  unfold mainImportBatSize ImportBatSize defaultBatchSizeFlag
  refine ⟨?_, ?_, ?_, by decide⟩
  · split_ifs <;> omega
  · split_ifs <;> omega
  · split_ifs <;> omega

/-- C8 (code defect): a leading `USE` directive whose bracketed name holds a
space is not rewritten as a whole: only `USE [My` is replaced, and the rest of
the name stays in the text, where the statement `USE [My DB]` was to be
replaced by `USE [New]`. -/
theorem replaceUse_bracketed_name_with_space :
    ReplaceUseDatabaseName "USE [My DB]\nGO\nSELECT 1".toList "New".toList
      = .ok "USE [New] DB]\nGO\nSELECT 1".toList ∧
    ReplaceUseDatabaseName "USE [My DB]\nGO\nSELECT 1".toList "New".toList
      ≠ .ok "USE [New]\nGO\nSELECT 1".toList := by
  constructor <;> decide

/-- C9: a dump with no data row, that is the header alone or the header
followed by one blank (empty or white-space only) line, gives no batch at all,
for every header and every window width for which `1 + W` stays in the range
of `int`. -/
theorem dataDump_without_rows_emits_nothing (W fuel : Nat) (H ws : Str)
    (hW : W + 2 < 9223372036854775808)
    (hH : '\n' ∉ H) (hws : '\n' ∉ ws) (hb : TrimSpace ws = []) :
    dataDumpBatches fuel (W : Int) H = .ok [] ∧
    dataDumpBatches (fuel + 1) (W : Int) (H ++ nl ++ ws) = .ok [] := by
  have h1 : Split H nl = [H] := by
    simpa [Join] using Split_Join (by decide) unbordered_nl [H] (by simp)
      (by simpa using sepFree_nl hH)
  have h2 : Split (H ++ nl ++ ws) nl = [H, ws] := by
    simpa [Join] using Split_Join (by decide) unbordered_nl [H, ws] (by simp)
      (by
        intro x hx
        simp at hx
        rcases hx with rfl | rfl
        · exact sepFree_nl hH
        · exact sepFree_nl hws)
  constructor
  · simp only [dataDumpBatches, h1, List.getElem?_cons_zero]
    exact windowLoop_done _ _ _ _ _ _ _ (by simp)
  · simp only [dataDumpBatches, h2, List.getElem?_cons_zero]
    rw [windowLoop_first W H (H ++ nl) ws [] fuel
      (by simp only [List.length_cons, List.length_nil]; omega)]
    simp [hb]

/-- Witness of C9: a header alone, and a header followed by a line of white
space. -/
theorem dataDump_without_rows_emits_nothing_witness :
    dataDumpBatches 0 ((16 : Nat) : Int) "INSERT INTO T VALUES".toList = .ok [] ∧
    dataDumpBatches (0 + 1) ((16 : Nat) : Int)
      ("INSERT INTO T VALUES".toList ++ nl ++ " \t".toList) = .ok [] :=
  dataDump_without_rows_emits_nothing 16 0 "INSERT INTO T VALUES".toList " \t".toList
    (by decide) (by decide) (by decide) (by decide)

/-- C10: when `splitBatches` returns a list of segments, joining the segments
with the separator and splitting again returns the same list.  The separator
is any non-empty text of which no proper prefix is also a suffix, as the
keyword `GO` is. -/
theorem splitBatches_rejoin_idempotent (sep sql : Str) (segs : List Str)
    (hne : sep ≠ []) (hu : Unbordered sep) (h : splitBatches sep sql = .ok segs) :
    splitBatches sep (Join segs sep) = .ok segs := by
  have hgood : ∀ x ∈ segs, GoodSegment sep x :=
    splitBatchesLoop_good sep (Split sql sep) [] segs (by simp) (Split_sepFree hne sql)
      (by simpa [splitBatches] using h)
  cases hs : segs with
  | nil =>
    simp [splitBatches, Split, hne, Join, splitGo, splitBatchesLoop, TrimSpace]
  | cons a rest =>
    rw [← hs]
    have hsplit : Split (Join segs sep) sep = segs :=
      Split_Join hne hu segs (by simp [hs]) (fun x hx => (hgood x hx).2.2)
    have := splitBatchesLoop_trimmed segs []
      (fun x hx => ⟨(hgood x hx).1, (hgood x hx).2.1⟩)
    simpa [splitBatches, hsplit] using this

/-- Witness of C10: the separator `GO` and a script of two batches. -/
theorem splitBatches_rejoin_idempotent_witness :
    splitBatches "GO".toList (Join ["SELECT 1".toList, "SELECT 2".toList] "GO".toList)
      = .ok ["SELECT 1".toList, "SELECT 2".toList] :=
  splitBatches_rejoin_idempotent "GO".toList "SELECT 1\nGO\n SELECT 2\nGO\n".toList
    ["SELECT 1".toList, "SELECT 2".toList] (by decide) (by decide) (by rfl)

/-- C11: `splitBatches` ends in an index out of range exactly when some raw
segment other than the last one is empty after trimming; otherwise it returns
the trimmed segments in order, and the only segment it can have removed is
the last one. -/
theorem splitBatches_panics_iff (sep sql : Str) :
    (splitBatches sep sql = .panic ↔ ∃ x ∈ (Split sql sep).dropLast, TrimSpace x = []) ∧
    ((∀ x ∈ (Split sql sep).dropLast, TrimSpace x ≠ []) →
      splitBatches sep sql
        = .ok ((Split sql sep).dropLast.map TrimSpace ++
            ((Split sql sep).getLast?.toList.map TrimSpace).filter fun s => decide (s ≠ []))) := by
  have hret : (∀ x ∈ (Split sql sep).dropLast, TrimSpace x ≠ []) →
      splitBatches sep sql
        = .ok ((Split sql sep).dropLast.map TrimSpace ++
            ((Split sql sep).getLast?.toList.map TrimSpace).filter fun s => decide (s ≠ [])) := by
    intro h
    have := splitBatchesLoop_returns (Split sql sep) [] h
    simpa [splitBatches] using this
  refine ⟨⟨?_, ?_⟩, hret⟩
  · intro hp
    by_contra hno
    have hall : ∀ x ∈ (Split sql sep).dropLast, TrimSpace x ≠ [] :=
      fun x hx hb => hno ⟨x, hx, hb⟩
    rw [hret hall] at hp
    exact absurd hp (by simp)
  · intro h
    have := splitBatchesLoop_panics (Split sql sep) [] h
    simpa [splitBatches] using this

/-- Witness of C11: no segment but the last is blank, so the call returns and
only the empty last segment is removed. -/
theorem splitBatches_panics_iff_witness :
    splitBatches "GO".toList "SELECT 1\nGO\nSELECT 2\nGO\n".toList
      = .ok ((Split "SELECT 1\nGO\nSELECT 2\nGO\n".toList "GO".toList).dropLast.map TrimSpace ++
          ((Split "SELECT 1\nGO\nSELECT 2\nGO\n".toList "GO".toList).getLast?.toList.map
            TrimSpace).filter fun s => decide (s ≠ [])) :=
  (splitBatches_panics_iff "GO".toList "SELECT 1\nGO\nSELECT 2\nGO\n".toList).2 (by decide)

/-- C12 (counterexample): with three blank lines before the row `x` and width
2 the first batch is built from the three blank lines, and the trimming at the
next iteration leaves the header alone: the returned batch `H` holds no line
after the header. -/
theorem dataDump_batch_of_header_alone :
    dataDumpBatches 4 2 "H\n\n\n\nx".toList = .ok ["H".toList, "H\nx".toList] ∧
    batchLines "H".toList = [] := by
  refine ⟨by rfl, by decide⟩

/-- C12 (amended): for every script text and every width of at least 1 that,
with the line count, stays in the range of `int`, the sliding window loop
returns, provided the fuel covers one iteration per line after the header: no
index or slice is out of range and the loop stops.  Its batches come, in
order, from non-empty windows that follow each other in the lines after the
header, so there are at most `len(lines) - 1` batches and each was appended
with at least one line after the header; every batch but, possibly, the last
one has been trimmed since.  With width 0 the loop does not stop on a script
of three lines. -/
theorem dataDump_loop_in_range :
    (∀ (W fuel : Nat) (sql : Str), 1 ≤ W →
      (Split sql nl).length + W < 9223372036854775808 →
      (Split sql nl).length ≤ fuel + 1 →
      ∃ (line0 : Str) (batches : List Str) (windows : List (List Str)),
        (Split sql nl).head? = some line0 ∧
        dataDumpBatches fuel (W : Int) sql = .ok batches ∧
        EmittedFrom (line0 ++ nl) batches windows ∧
        (∀ w ∈ windows, w ≠ []) ∧
        windows.flatten <+: (Split sql nl).tail ∧
        batches.length ≤ (Split sql nl).length - 1) ∧
    (∀ fuel : Nat, dataDumpBatches fuel 0 "H\na\nb".toList = .outOfFuel) := by
  constructor
  · intro W fuel sql hW hint hfuel
    have key : ∀ (H : Str) (body : List Str), body.length ≤ fuel →
        (H :: body).length + W < 9223372036854775808 →
        ∃ (out : List Str) (windows : List (List Str)),
          windowLoop (W : Int) (H :: body) (H ++ nl) fuel 1 (wrapInt (1 + (W : Int))) []
              = .ok out ∧
            EmittedFrom (H ++ nl) out windows ∧ (∀ v ∈ windows, v ≠ []) ∧
            windows.flatten <+: body := by
      intro H body hb hbound
      cases body with
      | nil =>
        exact ⟨[], [], windowLoop_done _ _ _ _ _ _ _ (by simp), Or.inl rfl, by simp, by simp⟩
      | cons a0 rem =>
        obtain ⟨f, rfl⟩ : ∃ f, fuel = f + 1 := ⟨fuel - 1, by simp at hb; omega⟩
        rw [windowLoop_first W H (H ++ nl) a0 rem f hbound]
        by_cases hc : (W + 1 = 1 ∨ rem = []) ∧ TrimSpace a0 = []
        · rw [if_pos hc]
          exact ⟨[], [], rfl, Or.inl rfl, by simp, by simp⟩
        · rw [if_neg hc]
          have := windowLoop_safe_rest W hW H (H ++ nl) f ((a0 :: rem).take (W + 1))
            ((a0 :: rem).drop (W + 1)) [] ((a0 :: rem).take (W + 1))
            (by rw [List.take_append_drop]; exact hbound)
            (by
              simp only [List.length_drop, List.length_cons] at hb ⊢
              omega)
            (by simp)
            (by simp)
          rw [List.take_append_drop] at this
          simpa [rawBatch] using this
    cases hs : Split sql nl with
    | nil => exact absurd hs (Split_nl_ne_nil sql)
    | cons H body =>
      rw [hs] at hfuel hint
      obtain ⟨out, windows, h1, h2, h3, h4⟩ := key H body (by simpa using hfuel) hint
      refine ⟨H, out, windows, rfl, ?_, h2, h3, h4, ?_⟩
      · simp only [dataDumpBatches, hs, List.getElem?_cons_zero]
        exact h1
      · rw [emittedFrom_length_eq h2]
        have := length_le_length_flatten windows h3
        have := h4.length_le
        simp only [List.tail_cons, List.length_cons, Nat.add_sub_cancel]
        omega
  · intro fuel
    have hs : Split "H\na\nb".toList nl = ["H".toList, "a".toList, "b".toList] := by decide
    simp only [dataDumpBatches, hs, List.getElem?_cons_zero]
    cases fuel with
    | zero => simp [windowLoop]
    | succ fuel =>
      rw [windowLoop_unfold 0 _ _ fuel 1 (wrapInt (1 + 0)) 1 [] "a".toList ["a".toList]
        (by decide) (by decide) (by decide) (by decide)]
      have h1 : ¬ ((1 : Int) = 1 ∧ TrimSpace "a".toList = []) := by decide
      have e1 : wrapInt (1 + 1) = 2 := by decide
      have e2 : wrapInt (1 + 0) = 1 := by decide
      rw [if_neg h1, e1, e2]
      exact windowLoop_zero_width_stuck _ fuel _

/-- Witness of C12: a script of five lines, width 2 and fuel for four
iterations. -/
theorem dataDump_loop_in_range_witness :
    ∃ (line0 : Str) (batches : List Str) (windows : List (List Str)),
      (Split "H\na,\nb,\nc,\nd".toList nl).head? = some line0 ∧
      dataDumpBatches 4 ((2 : Nat) : Int) "H\na,\nb,\nc,\nd".toList = .ok batches ∧
      EmittedFrom (line0 ++ nl) batches windows ∧
      (∀ w ∈ windows, w ≠ []) ∧
      windows.flatten <+: (Split "H\na,\nb,\nc,\nd".toList nl).tail ∧
      batches.length ≤ (Split "H\na,\nb,\nc,\nd".toList nl).length - 1 :=
  dataDump_loop_in_range.1 2 4 "H\na,\nb,\nc,\nd".toList (by decide) (by decide) (by decide)

end KodbImport
